import Mathlib

/-! The raft node driver (`raft/node.go`)

A shallow embedding of the tick-driven driver `Node` that wraps the consensus
state machine, followed by theorems about its operations.

Conventions.

* Go's `int` and the driver's `tick` are 64-bit signed integers.  They are
  embedded as `Int`; the two arithmetic operations the driver performs
  (`heartbeat*3` in `New`, `n.elapsed++` in `Tick`) wrap through `wrap64`.
* A Go panic is the `Except.error` result carrying the panic text.
* The consensus state machine (`stateMachine`, its `Step`, `nextEnts`,
  `addNode`, `removeNode`, `promotable`, the message and entry types and their
  constants) lives in other files of the package.  Its data and operations are
  modelled from the specification; its message handler `Step` is a parameter
  `smStep` of every driver operation that reaches it.
* `json.Marshal` and `json.Unmarshal` belong to the standard library; they are
  the parameters `marshal` and `unmarshal`.
-/

namespace Raft

/-! ## Machine integers -/

/-- Two's-complement reduction of an exact integer to a 64-bit signed `int`. -/
def wrap64 (x : Int) : Int := (x + 2 ^ 63) % 2 ^ 64 - 2 ^ 63

/-- The exact integers that a 64-bit signed `int` can hold. -/
def isInt64 (x : Int) : Prop := -(2 ^ 63) ≤ x ∧ x < 2 ^ 63

instance (x : Int) : Decidable (isInt64 x) := by unfold isInt64; infer_instance

/-! ## Protocol types -/

/-- Modelled from the spec: the `messageType` constants, declared outside
`node.go`.  The spec lists a client proposal, the two internal timer triggers,
and the vote and append request/response pairs. -/
inductive messageType where
  | msgHup
  | msgBeat
  | msgProp
  | msgApp
  | msgAppResp
  | msgVote
  | msgVoteResp
  deriving DecidableEq, Repr

export messageType (msgHup msgBeat msgProp msgApp msgAppResp msgVote msgVoteResp)

/-- Modelled from the spec: the entry kind code `Normal`, declared outside
`node.go`.  Entry kinds are plain `int`s in the source (`propose(t int, ...)`),
so kinds outside the three named ones exist.  The three codes are distinct, as
the `switch` of `Node.Next` requires of its case constants; the proofs use
nothing else about their values. -/
def Normal : Int := 0

/-- Modelled from the spec: the entry kind code `AddNode` (the spec's
AddMember). -/
def AddNode : Int := 1

/-- Modelled from the spec: the entry kind code `RemoveNode` (the spec's
RemoveMember). -/
def RemoveNode : Int := 2

/-- Modelled from the spec: the `Entry` type, declared outside `node.go`: a log
record with a kind, a term and a payload (its index is its position in the
log).  Payload bytes are natural numbers below 256.  The field `Type` of the source
is `Type_` here, `Type` being reserved. -/
structure Entry where
  Type_ : Int := 0
  Term : Int := 0
  Data : List Nat := []
  deriving DecidableEq, Repr

/-- Modelled from the spec: the `Message` type, declared outside `node.go`.  The
driver reads `Type` and `Index` and writes `Type` and `Entries`; a Go composite
literal leaves every other field at its zero value, which the defaults give. -/
structure Message where
  Type_ : messageType := msgHup
  To : Int := 0
  From : Int := 0
  Term : Int := 0
  LogTerm : Int := 0
  Index : Int := 0
  Commit : Int := 0
  Entries : List Entry := []
  deriving DecidableEq, Repr

/-- The membership-change payload `Config` of `node.go`. -/
structure Config where
  NodeId : Int := 0
  Addr : String := ""
  deriving DecidableEq, Repr

/-! ## The consensus state machine, as far as the driver sees it -/

/-- Modelled from the spec: the role of a replica (`stateType`), declared
outside `node.go`. -/
inductive stateType where
  | stateFollower
  | stateCandidate
  | stateLeader
  deriving DecidableEq, Repr

export stateType (stateFollower stateCandidate stateLeader)

/-- Modelled from the spec: the log, declared outside `node.go`: an ordered
sequence of entries indexed from 1 (`ents[i]` is the entry with index `i+1`),
with the highest committed and the highest applied index. -/
structure log where
  ents : List Entry := []
  committed : Nat := 0
  applied : Nat := 0
  deriving DecidableEq, Repr

/-- Modelled from the spec: `log.lastIndex`, the highest index appended. -/
def log.lastIndex (l : log) : Nat := l.ents.length

/-- Modelled from the spec: the sentinel `none` of the source, declared outside
`node.go`: the leader id that stands for "no leader known".  It is `none_`
here, `none` being the empty `Option`.  It is an identifier like any other, so
a replica may carry it as its own id; the proofs do not use its value. -/
def none_ : Int := -1

/-- Modelled from the spec: the `stateMachine` type, declared outside
`node.go`.  It owns the identifier, term, vote, leader id (the sentinel `none_`
when no leader is known), role, log, membership set `ins`, the votes received,
and the outbound queue `msgs`. -/
structure stateMachine where
  id : Int := 0
  term : Int := 0
  vote : Option Int := none
  lead : Int := none_
  state : stateType := stateFollower
  log : log := {}
  ins : Finset Int := ∅
  votes : List (Int × Bool) := []
  msgs : List Message := []
  deriving DecidableEq

/-- Modelled from the spec: `newStateMachine(id, peers)`, defined outside
`node.go`: a follower at term 0 with an empty log, no vote, no known leader,
nothing queued, and the given peers as its membership set. -/
def newStateMachine (id : Int) (peers : List Int) : stateMachine :=
  { id := id, ins := peers.toFinset }

/-- Modelled from the spec: `stateMachine.promotable`, defined outside
`node.go`: true iff the local identifier is currently a member of the
membership set. -/
def stateMachine.promotable (sm : stateMachine) : Bool := decide (sm.id ∈ sm.ins)

/-- Modelled from the spec: `stateMachine.nextEnts`, defined outside `node.go`:
it hands out the log entries with index in `(applied, commit]` in ascending
index order.  The spec has `next()` advance `applied` to `commit`, and
`Node.Next` of `node.go` contains no statement that writes `applied`, so the
advance is part of this call, through which the driver consumes the entries:
the state machine it leaves has `applied = commit` when entries were pending
and is unchanged otherwise. -/
def stateMachine.nextEnts (sm : stateMachine) : List Entry × stateMachine :=
  ((sm.log.ents.drop sm.log.applied).take (sm.log.committed - sm.log.applied),
   { sm with log := { sm.log with
      applied := if sm.log.applied < sm.log.committed then sm.log.committed
                 else sm.log.applied } })

/-- Modelled from the spec: `stateMachine.addNode`, defined outside `node.go`:
adds the identifier to the membership set. -/
def stateMachine.addNode (sm : stateMachine) (id : Int) : stateMachine :=
  { sm with ins := insert id sm.ins }

/-- Modelled from the spec: `stateMachine.removeNode`, defined outside
`node.go`: removes the identifier from the membership set. -/
def stateMachine.removeNode (sm : stateMachine) (id : Int) : stateMachine :=
  { sm with ins := sm.ins.erase id }

/-- Modelled from the spec: `stateMachine.Msgs`, defined outside `node.go`:
drains the outbound queue, returning the messages queued since the last
drain. -/
def stateMachine.Msgs (sm : stateMachine) : List Message × stateMachine :=
  (sm.msgs, { sm with msgs := [] })

/-- The type of the state machine's message handler `stateMachine.Step`, which
is defined outside `node.go`: it reports whether the message was accepted and
leaves the state machine in a new state. -/
abbrev StepFn := Message → stateMachine → Bool × stateMachine

/-! ## The driver -/

/-- The driver `Node` of `node.go`: a state machine plus the tick counters. -/
structure Node where
  sm : stateMachine
  elapsed : Int := 0
  election : Int := 0
  heartbeat : Int := 0
  deriving DecidableEq

/-- The constructor `New(id, heartbeat, election)`.  The product `heartbeat*3` is a machine
multiplication. -/
def New (id : Int) (heartbeat election : Int) : Except String Node :=
  if election < wrap64 (heartbeat * 3) then
    .error "election is least three times as heartbeat [election: %d, heartbeat: %d]"
  else
    .ok { heartbeat := heartbeat, election := election, sm := newStateMachine id [id] }

/-- The query `Node.Id`. -/
def Node.Id (n : Node) : Int := n.sm.id

/-- The query `Node.Index`. -/
def Node.Index (n : Node) : Nat := n.sm.log.lastIndex

/-- The query `Node.Term`. -/
def Node.Term (n : Node) : Int := n.sm.term

/-- The query `Node.Applied`. -/
def Node.Applied (n : Node) : Nat := n.sm.log.applied

/-- The query `Node.HasLeader`: the leader id differs from the sentinel. -/
def Node.HasLeader (n : Node) : Bool := n.sm.lead != none_

/-- The query `Node.IsLeader`: the leader id equals the node's own id. -/
def Node.IsLeader (n : Node) : Bool := n.sm.lead == n.Id

/-- The query `Node.Leader`. -/
def Node.Leader (n : Node) : Int := n.sm.lead

/-- The body of the `for ... range n.sm.msgs[l:]` loop of `Node.Step`, run over
the inspected messages from left to right, threading `n.elapsed`. -/
def Node.scanResponses : List Message → Int → Int
  | [], elapsed => elapsed
  | m :: ms, elapsed =>
    match m.Type_ with
    | msgAppResp => Node.scanResponses ms 0
    | msgVoteResp => if m.Index ≥ 0 then Node.scanResponses ms 0 else Node.scanResponses ms elapsed
    | _ => Node.scanResponses ms elapsed

/-- The operation `Node.Step(m)`.  The slice expression `n.sm.msgs[l:]` panics when the queue
is shorter than `l` after the state machine's step. -/
def Node.Step (smStep : StepFn) (n : Node) (m : Message) : Except String (Bool × Node) :=
  let l := n.sm.msgs.length
  let r := smStep m n.sm
  if !r.1 then
    .ok (false, { n with sm := r.2 })
  else if l > r.2.msgs.length then
    .error "slice bounds out of range"
  else
    .ok (true, { n with sm := r.2, elapsed := Node.scanResponses (r.2.msgs.drop l) n.elapsed })

/-- The helper `Node.propose(t, data)`: the result of `Step` is discarded. -/
def Node.propose (smStep : StepFn) (n : Node) (t : Int) (data : List Nat) : Except String Node :=
  (Node.Step smStep n { Type_ := msgProp, Entries := [{ Type_ := t, Data := data }] }).map Prod.snd

/-- The command `Node.Propose(data)`. -/
def Node.Propose (smStep : StepFn) (n : Node) (data : List Nat) : Except String Node :=
  Node.propose smStep n Normal data

/-- The command `Node.Campaign()`. -/
def Node.Campaign (smStep : StepFn) (n : Node) : Except String Node :=
  (Node.Step smStep n { Type_ := msgHup }).map Prod.snd

/-- The helper `Node.updateConf(t, c)`: a `json.Marshal` error is a panic. -/
def Node.updateConf (marshal : Config → Except String (List Nat)) (smStep : StepFn)
    (n : Node) (t : Int) (c : Config) : Except String Node :=
  match marshal c with
  | .error err => .error err
  | .ok data => Node.propose smStep n t data

/-- The command `Node.Add(id, addr)`. -/
def Node.Add (marshal : Config → Except String (List Nat)) (smStep : StepFn)
    (n : Node) (id : Int) (addr : String) : Except String Node :=
  Node.updateConf marshal smStep n AddNode { NodeId := id, Addr := addr }

/-- The command `Node.Remove(id)`. -/
def Node.Remove (marshal : Config → Except String (List Nat)) (smStep : StepFn)
    (n : Node) (id : Int) : Except String Node :=
  Node.updateConf marshal smStep n RemoveNode { NodeId := id }

/-- The output `Node.Msgs()`. -/
def Node.Msgs (n : Node) : List Message × Node :=
  ((n.sm.Msgs).1, { n with sm := (n.sm.Msgs).2 })

/-- The `for i := range ents` loop of `Node.Next`, threading the state machine.
A payload that fails to decode is logged and the loop continues with the next
entry; an entry kind outside the three cases panics. -/
def Node.applyEnts (unmarshal : List Nat → Option Config) :
    List Entry → stateMachine → Except String stateMachine
  | [], sm => .ok sm
  | e :: es, sm =>
    if e.Type_ = Normal then
      Node.applyEnts unmarshal es sm
    else if e.Type_ = AddNode then
      match unmarshal e.Data with
      | none => Node.applyEnts unmarshal es sm
      | some c => Node.applyEnts unmarshal es (sm.addNode c.NodeId)
    else if e.Type_ = RemoveNode then
      match unmarshal e.Data with
      | none => Node.applyEnts unmarshal es sm
      | some c => Node.applyEnts unmarshal es (sm.removeNode c.NodeId)
    else
      .error "unexpected entry type"

/-- The output `Node.Next()`.  The call `n.sm.nextEnts()` hands out the entries
`r.1` and leaves the state machine as `r.2`; the loop then runs on that state
machine, and the entries are returned as they were handed out. -/
def Node.Next (unmarshal : List Nat → Option Config) (n : Node) :
    Except String (List Entry × Node) :=
  let r := n.sm.nextEnts
  match Node.applyEnts unmarshal r.1 r.2 with
  | .error err => .error err
  | .ok sm' => .ok (r.1, { n with sm := sm' })

/-- The command `Node.Tick()`.  When the timeout is reached the trigger goes through
`Step`, whose boolean is discarded, and `elapsed` is set to 0; otherwise
`elapsed` is incremented (a machine increment). -/
def Node.Tick (smStep : StepFn) (n : Node) : Except String Node :=
  if !n.sm.promotable then
    .ok n
  else
    let timeout := if n.sm.state = stateLeader then n.heartbeat else n.election
    let msgType := if n.sm.state = stateLeader then msgBeat else msgHup
    if n.elapsed ≥ timeout then
      match Node.Step smStep n { Type_ := msgType } with
      | .error err => .error err
      | .ok r => .ok { r.2 with elapsed := 0 }
    else
      .ok { n with elapsed := wrap64 (n.elapsed + 1) }

/-! ## A sample state machine handler

The theorems below hold for every handler `smStep`.  The handler of this
section is one concrete instance, used to evaluate the driver on explicit
inputs. -/

/-- A sample message handler.  A vote or append request whose term is below the
local term is rejected without effect.  An append request is answered with an
append response that carries the request's index when the local log reaches
that index and `-1` otherwise.  A vote request is answered with a vote
response that carries the request's index when no vote was cast for somebody
else and `-1` otherwise.  An election timeout makes the replica a candidate of
the next term and sends a vote request to each other member; a heartbeat
timeout of a leader sends an empty append request to each other member.
A proposal is appended to a leader's log and dropped by everybody else. -/
def sampleStep : StepFn := fun m sm =>
  let others := (sm.ins.erase sm.id).sort (· ≤ ·)
  match m.Type_ with
  | msgApp =>
    let idx : Int := if m.Index ≤ sm.log.lastIndex then m.Index else -1
    let resp : Message :=
      { Type_ := msgAppResp, To := m.From, From := sm.id, Term := m.Term, Index := idx }
    if m.Term < sm.term then (false, sm)
    else
      (true, { sm with
        term := m.Term, lead := m.From, state := stateFollower, msgs := sm.msgs ++ [resp] })
  | msgVote =>
    let granted : Message :=
      { Type_ := msgVoteResp, To := m.From, From := sm.id, Term := m.Term, Index := m.Index }
    let denied : Message :=
      { Type_ := msgVoteResp, To := m.From, From := sm.id, Term := sm.term, Index := -1 }
    if m.Term < sm.term then (false, sm)
    else if sm.vote = none ∨ sm.vote = some m.From then
      (true, { sm with term := m.Term, vote := some m.From, msgs := sm.msgs ++ [granted] })
    else
      (true, { sm with msgs := sm.msgs ++ [denied] })
  | msgHup =>
    let reqs : List Message := others.map fun p =>
      { Type_ := msgVote, To := p, From := sm.id, Term := sm.term + 1, Index := sm.log.lastIndex }
    (true, { sm with
      term := sm.term + 1, vote := some sm.id, lead := none_, state := stateCandidate,
      msgs := sm.msgs ++ reqs })
  | msgBeat =>
    let beats : List Message := others.map fun p =>
      { Type_ := msgApp, To := p, From := sm.id, Term := sm.term, Index := sm.log.lastIndex,
        Commit := sm.log.committed }
    if sm.state = stateLeader then (true, { sm with msgs := sm.msgs ++ beats })
    else (true, sm)
  | msgProp =>
    if sm.state = stateLeader then
      (true, { sm with log := { sm.log with ents := sm.log.ents ++ m.Entries } })
    else (true, sm)
  | _ => (true, sm)

/-- A sample follower: replica 1 of the cluster `{1, 2}` at term 2 with an empty
log, driven with heartbeat interval 1 and election interval 10, five ticks
after it last heard from a leader. -/
def sampleNode : Node :=
  { sm := { id := 1, term := 2, ins := {1, 2} }, elapsed := 5, election := 10, heartbeat := 1 }

/-- A stale vote request: its term 1 is below the sample follower's term 2. -/
def staleVote : Message := { Type_ := msgVote, From := 2, Term := 1 }

/-- An append request of the current term that the sample follower's empty log
matches (index 0). -/
def matchingApp : Message := { Type_ := msgApp, From := 2, Term := 2, Index := 0 }

/-- An append request of the current term whose preceding index 3 the sample
follower's empty log does not reach, so that it is answered with index `-1`. -/
def mismatchedApp : Message := { Type_ := msgApp, From := 2, Term := 2, Index := 3 }

/-- A sample payload decoder standing in for `json.Unmarshal`: a payload of
exactly one byte `b` decodes to the configuration of node `b`; every other
payload fails to decode. -/
def sampleUnmarshal : List Nat → Option Config
  | [b] => some { NodeId := b }
  | _ => none

/-- A sample node with pending entries: replica 1 of the cluster `{1, 2}` whose
log holds four entries, of which the first is applied and the first four are
committed.  Pending are an `AddNode` entry with a malformed payload, an
`AddNode` entry for node 3 and a `RemoveNode` entry for node 2. -/
def pendingNode : Node :=
  { sm :=
      { id := 1, term := 1, ins := {1, 2},
        log :=
          { ents :=
              [{ Type_ := Normal, Term := 1, Data := [120] },
               { Type_ := AddNode, Term := 1, Data := [7, 7] },
               { Type_ := AddNode, Term := 1, Data := [3] },
               { Type_ := RemoveNode, Term := 1, Data := [2] }],
            committed := 4, applied := 1 } },
    elapsed := 0, election := 10, heartbeat := 1 }

/-- A sample node with one pending entry of the unknown kind 9 between two
known ones. -/
def corruptNode : Node :=
  { sm :=
      { id := 1, term := 1, ins := {1},
        log :=
          { ents :=
              [{ Type_ := AddNode, Term := 1, Data := [3] },
               { Type_ := 9, Term := 1, Data := [] },
               { Type_ := Normal, Term := 1, Data := [120] }],
            committed := 3, applied := 0 } },
    elapsed := 0, election := 10, heartbeat := 1 }

/-- A sample node that is no longer a member: replica 1 with membership `{2}`,
far past both timeouts. -/
def removedNode : Node :=
  { sm := { id := 1, term := 4, state := stateLeader, ins := {2} },
    elapsed := 100, election := 10, heartbeat := 1 }

/-! ## The configuration batch as the specification words it -/

/-- The effect of one applied entry on the state machine in the words of the
specification: `addNode(c.NodeId)` for an `AddNode` entry whose payload decodes
to `c`, `removeNode(c.NodeId)` for a `RemoveNode` entry whose payload decodes
to `c`, nothing for any other entry and for a payload that fails to decode. -/
def applyConf (unmarshal : List Nat → Option Config) (sm : stateMachine) (e : Entry) :
    stateMachine :=
  if e.Type_ = AddNode then
    match unmarshal e.Data with
    | some c => sm.addNode c.NodeId
    | none => sm
  else if e.Type_ = RemoveNode then
    match unmarshal e.Data with
    | some c => sm.removeNode c.NodeId
    | none => sm
  else sm

/-- The left-to-right fold of `applyConf` over a batch. -/
def foldConf (unmarshal : List Nat → Option Config) (ents : List Entry) (sm : stateMachine) :
    stateMachine :=
  ents.foldl (applyConf unmarshal) sm

/-! ## Runs of the driver -/

/-- The commands of the driver that change a node: one constructor per
operation of `node.go`, with its arguments. -/
inductive Op where
  | Step (m : Message)
  | Tick
  | Propose (data : List Nat)
  | Campaign
  | Add (id : Int) (addr : String)
  | Remove (id : Int)
  | Next

/-- The node after one command; what the command returns to its caller (the
boolean of `Step`, the entries of `Next`) is dropped. -/
def Node.exec (marshal : Config → Except String (List Nat))
    (unmarshal : List Nat → Option Config) (smStep : StepFn) (n : Node) :
    Op → Except String Node
  | .Step m => (Node.Step smStep n m).map Prod.snd
  | .Tick => Node.Tick smStep n
  | .Propose data => Node.Propose smStep n data
  | .Campaign => Node.Campaign smStep n
  | .Add id addr => Node.Add marshal smStep n id addr
  | .Remove id => Node.Remove marshal smStep n id
  | .Next => (Node.Next unmarshal n).map Prod.snd

/-- The node after a sequence of commands, run from left to right; a panic of
any command ends the run. -/
def Node.run (marshal : Config → Except String (List Nat))
    (unmarshal : List Nat → Option Config) (smStep : StepFn) :
    List Op → Node → Except String Node
  | [], n => .ok n
  | op :: ops, n =>
    match Node.exec marshal unmarshal smStep n op with
    | .error err => .error err
    | .ok n' => Node.run marshal unmarshal smStep ops n'

/-- The node after `k` consecutive calls of `Tick`. -/
def Node.ticks (smStep : StepFn) : Nat → Node → Except String Node
  | 0, n => .ok n
  | k + 1, n =>
    match Node.Tick smStep n with
    | .error err => .error err
    | .ok n' => Node.ticks smStep k n'

/-- The state machine after it has handled `j` triggers of type `msgType` in a
row, each a `Message{Type: msgType}`. -/
def stateMachine.afterTriggers (smStep : StepFn) (msgType : messageType) :
    Nat → stateMachine → stateMachine
  | 0, sm => sm
  | j + 1, sm =>
    (smStep { Type_ := msgType } (stateMachine.afterTriggers smStep msgType j sm)).2

/-- The assumption that the state machine's `Step` only appends to its outbound
queue, never removing or reordering what is already queued: after the step the
queue is the queue before it followed by the messages queued during the
step. -/
def appendsOnly (smStep : StepFn) : Prop :=
  ∀ m sm, ∃ out, (smStep m sm).2.msgs = sm.msgs ++ out

/-- The further assumption that the state machine does not consult its outbound
queue: its verdict on a message, and the messages found in the queue from the
pre-call length on, are the same whatever is queued beforehand. -/
def queueBlind (smStep : StepFn) : Prop :=
  ∀ m sm q, (smStep m { sm with msgs := q }).1 = (smStep m sm).1 ∧
    (smStep m { sm with msgs := q }).2.msgs.drop q.length =
      (smStep m sm).2.msgs.drop sm.msgs.length

/-! ## More sample data -/

/-- A sample payload encoder standing in for `json.Marshal`: the configuration
of node `b` is encoded as the one byte `b`. -/
def sampleMarshal : Config → Except String (List Nat) :=
  fun c => .ok [c.NodeId.toNat]

/-- A sample handler that only appends to its queue, never removing or
reordering what is queued, but looks at the queue first: it accepts every
message and queues one append response when the queue is empty, nothing
otherwise. -/
def queueReadingStep : StepFn := fun _ sm =>
  if sm.msgs = [] then (true, { sm with msgs := sm.msgs ++ [{ Type_ := msgAppResp }] })
  else (true, sm)

/-- A sample leader: replica 1 of the cluster `{1, 2}`, leader of term 3, with
heartbeat interval 2 and election interval 10, right after a heartbeat. -/
def leaderNode : Node :=
  { sm := { id := 1, term := 3, lead := 1, state := stateLeader, ins := {1, 2} },
    elapsed := 0, election := 10, heartbeat := 2 }

/-! ## Lemmas about the driver -/

/-- A response that makes `Node.Step` reset the election counter: an append
response, or a vote response with a non-negative index. -/
def Message.resets (r : Message) : Bool :=
  decide (r.Type_ = msgAppResp) || (decide (r.Type_ = msgVoteResp) && decide (r.Index ≥ 0))

theorem wrap64_of_isInt64 (x : Int) (h : isInt64 x) : wrap64 x = x := by
  unfold isInt64 at h
  unfold wrap64
  have h1 : (x + 2 ^ 63) % 2 ^ 64 = x + 2 ^ 63 := by
    apply Int.emod_eq_of_lt <;> omega
  omega

theorem scanResponses_eq (ms : List Message) (e : Int) :
    Node.scanResponses ms e = if ms.any Message.resets then 0 else e := by
  induction ms generalizing e with
  | nil => simp [Node.scanResponses]
  | cons r rs ih =>
    cases hty : r.Type_ <;> simp [Node.scanResponses, hty, ih, Message.resets]
    by_cases hi : 0 ≤ r.Index <;> simp [hi]

theorem Step_of_reject (smStep : StepFn) (n : Node) (m : Message)
    (h : (smStep m n.sm).1 = false) :
    Node.Step smStep n m = .ok (false, { n with sm := (smStep m n.sm).2 }) := by
  simp [Node.Step, h]

theorem Step_of_accept (smStep : StepFn) (n : Node) (m : Message)
    (h : (smStep m n.sm).1 = true)
    (hq : n.sm.msgs.length ≤ (smStep m n.sm).2.msgs.length) :
    Node.Step smStep n m = .ok (true, { n with
      sm := (smStep m n.sm).2,
      elapsed := Node.scanResponses ((smStep m n.sm).2.msgs.drop n.sm.msgs.length) n.elapsed }) := by
  simp [Node.Step, h, Nat.not_lt.mpr hq]

theorem kinds_distinct : Normal ≠ AddNode ∧ Normal ≠ RemoveNode ∧ AddNode ≠ RemoveNode := by
  decide

theorem applyEnts_eq_foldConf (unmarshal : List Nat → Option Config) (ents : List Entry)
    (sm : stateMachine)
    (h : ∀ e ∈ ents, e.Type_ = Normal ∨ e.Type_ = AddNode ∨ e.Type_ = RemoveNode) :
    Node.applyEnts unmarshal ents sm = .ok (foldConf unmarshal ents sm) := by
  induction ents generalizing sm with
  | nil => rfl
  | cons e es ih =>
    have hes : ∀ x ∈ es, x.Type_ = Normal ∨ x.Type_ = AddNode ∨ x.Type_ = RemoveNode :=
      fun x hx => h x (List.mem_cons_of_mem _ hx)
    obtain ⟨hna, hnr, har⟩ := kinds_distinct
    rcases h e (List.mem_cons_self _ _) with hk | hk | hk
    · simp [Node.applyEnts, foldConf, applyConf, hk, hna, hnr, ih _ hes]
    · cases hu : unmarshal e.Data <;>
        simp [Node.applyEnts, foldConf, applyConf, hk, hna.symm, har, hu, ih _ hes]
    · cases hu : unmarshal e.Data <;>
        simp [Node.applyEnts, foldConf, applyConf, hk, hnr.symm, har.symm, hu, ih _ hes]

theorem applyEnts_error_of_unknown (unmarshal : List Nat → Option Config) (ents : List Entry)
    (sm : stateMachine)
    (h : ∃ e ∈ ents, ¬ (e.Type_ = Normal ∨ e.Type_ = AddNode ∨ e.Type_ = RemoveNode)) :
    Node.applyEnts unmarshal ents sm = .error "unexpected entry type" := by
  induction ents generalizing sm with
  | nil => simp at h
  | cons e es ih =>
    by_cases hk : e.Type_ = Normal ∨ e.Type_ = AddNode ∨ e.Type_ = RemoveNode
    · have hes : ∃ x ∈ es, ¬ (x.Type_ = Normal ∨ x.Type_ = AddNode ∨ x.Type_ = RemoveNode) := by
        obtain ⟨x, hx, hbad⟩ := h
        rcases List.mem_cons.mp hx with rfl | hx
        · exact absurd hk hbad
        · exact ⟨x, hx, hbad⟩
      unfold Node.applyEnts
      split_ifs
      · exact ih _ hes
      · cases unmarshal e.Data <;> exact ih _ hes
      · cases unmarshal e.Data <;> exact ih _ hes
      · tauto
    · unfold Node.applyEnts
      split_ifs <;> first | rfl | tauto

theorem foldConf_log (unmarshal : List Nat → Option Config) (ents : List Entry)
    (sm : stateMachine) : (foldConf unmarshal ents sm).log = sm.log := by
  induction ents generalizing sm with
  | nil => rfl
  | cons e es ih =>
    have h1 : (applyConf unmarshal sm e).log = sm.log := by
      unfold applyConf
      split_ifs
      · cases unmarshal e.Data <;> rfl
      · cases unmarshal e.Data <;> rfl
      · rfl
    show (foldConf unmarshal es (applyConf unmarshal sm e)).log = sm.log
    rw [ih, h1]

theorem foldConf_skip (unmarshal : List Nat → Option Config) (pre post : List Entry)
    (bad : Entry) (sm : stateMachine)
    (h : unmarshal bad.Data = none ∨ bad.Type_ = Normal) :
    foldConf unmarshal (pre ++ bad :: post) sm = foldConf unmarshal (pre ++ post) sm := by
  have h1 : ∀ s, applyConf unmarshal s bad = s := by
    intro s
    obtain ⟨hna, hnr, -⟩ := kinds_distinct
    rcases h with h | h
    · simp [applyConf, h]
    · simp [applyConf, h, hna, hnr]
  simp [foldConf, List.foldl_append, h1]

theorem Next_of_known (unmarshal : List Nat → Option Config) (n : Node)
    (h : ∀ e ∈ n.sm.nextEnts.1, e.Type_ = Normal ∨ e.Type_ = AddNode ∨ e.Type_ = RemoveNode) :
    Node.Next unmarshal n =
      .ok (n.sm.nextEnts.1,
        { n with sm := foldConf unmarshal n.sm.nextEnts.1 n.sm.nextEnts.2 }) := by
  simp [Node.Next, applyEnts_eq_foldConf unmarshal _ n.sm.nextEnts.2 h]

theorem applyConf_ins (unmarshal : List Nat → Option Config) (s t : stateMachine) (e : Entry)
    (h : s.ins = t.ins) : (applyConf unmarshal s e).ins = (applyConf unmarshal t e).ins := by
  unfold applyConf
  split_ifs
  · cases unmarshal e.Data <;> simp [stateMachine.addNode, h]
  · cases unmarshal e.Data <;> simp [stateMachine.removeNode, h]
  · exact h

theorem foldConf_ins (unmarshal : List Nat → Option Config) (ents : List Entry)
    (s t : stateMachine) (h : s.ins = t.ins) :
    (foldConf unmarshal ents s).ins = (foldConf unmarshal ents t).ins := by
  induction ents generalizing s t with
  | nil => exact h
  | cons e es ih => exact ih _ _ (applyConf_ins unmarshal s t e h)

theorem nextEnts_length (sm : stateMachine) :
    sm.nextEnts.1.length = min sm.log.committed sm.log.ents.length - sm.log.applied := by
  simp only [stateMachine.nextEnts, List.length_take, List.length_drop]
  omega

theorem nextEnts_getElem? (sm : stateMachine) (i : Nat) (h : i < sm.nextEnts.1.length) :
    sm.nextEnts.1[i]? = sm.log.ents[sm.log.applied + i]? := by
  have hl := nextEnts_length sm
  have hi : i < sm.log.committed - sm.log.applied := by omega
  simp [stateMachine.nextEnts, List.getElem?_take, hi]

theorem nextEnts_of_applied_eq (sm : stateMachine) (h : sm.log.applied = sm.log.committed) :
    sm.nextEnts = ([], sm) := by
  obtain ⟨id, term, vote, lead, state, ⟨ents, committed, applied⟩, ins, votes, msgs⟩ := sm
  simp only at h
  subst h
  simp [stateMachine.nextEnts]

theorem nextEnts_advances (sm : stateMachine) (h : sm.log.applied ≤ sm.log.committed) :
    sm.nextEnts.2.log.applied = sm.log.committed ∧
      sm.nextEnts.2.log.committed = sm.log.committed ∧
      sm.nextEnts.2.log.ents = sm.log.ents := by
  refine ⟨?_, rfl, rfl⟩
  show (if sm.log.applied < sm.log.committed then sm.log.committed else sm.log.applied) = _
  split_ifs <;> omega

theorem every_batch_is_pending (batch : List Entry) (sm : stateMachine) :
    ({ sm with log := { ents := batch, committed := batch.length, applied := 0 } }
      : stateMachine).nextEnts.1 = batch := by
  simp [stateMachine.nextEnts]

theorem Tick_of_timeout (smStep : StepFn) (n : Node) (timeout : Int) (msgType : messageType)
    (hp : n.sm.promotable = true)
    (hrole : (timeout, msgType) =
      if n.sm.state = stateLeader then (n.heartbeat, msgBeat) else (n.election, msgHup))
    (ht : n.elapsed ≥ timeout) :
    Node.Tick smStep n =
      match Node.Step smStep n { Type_ := msgType } with
      | .error err => .error err
      | .ok r => .ok { r.2 with elapsed := 0 } := by
  by_cases hl : n.sm.state = stateLeader
  · simp only [hl, if_true, Prod.mk.injEq] at hrole
    obtain ⟨rfl, rfl⟩ := hrole
    simp [Node.Tick, hp, hl, ge_iff_le.mp ht]
  · simp only [hl, if_false, Prod.mk.injEq] at hrole
    obtain ⟨rfl, rfl⟩ := hrole
    simp [Node.Tick, hp, hl, ge_iff_le.mp ht]

theorem Tick_of_below (smStep : StepFn) (n : Node) (timeout : Int) (msgType : messageType)
    (hp : n.sm.promotable = true)
    (hrole : (timeout, msgType) =
      if n.sm.state = stateLeader then (n.heartbeat, msgBeat) else (n.election, msgHup))
    (he : isInt64 n.elapsed) (hto : isInt64 timeout)
    (hlt : n.elapsed < timeout) :
    Node.Tick smStep n = .ok { n with elapsed := n.elapsed + 1 } := by
  have hw : wrap64 (n.elapsed + 1) = n.elapsed + 1 := by
    apply wrap64_of_isInt64
    unfold isInt64 at *
    omega
  by_cases hl : n.sm.state = stateLeader
  · simp only [hl, if_true, Prod.mk.injEq] at hrole
    obtain ⟨rfl, rfl⟩ := hrole
    simp [Node.Tick, hp, hl, not_le.mpr hlt, hw]
  · simp only [hl, if_false, Prod.mk.injEq] at hrole
    obtain ⟨rfl, rfl⟩ := hrole
    simp [Node.Tick, hp, hl, not_le.mpr hlt, hw]

theorem Next_known_of_ok (unmarshal : List Nat → Option Config) (n : Node)
    (r : List Entry × Node) (h : Node.Next unmarshal n = .ok r) :
    ∀ e ∈ n.sm.nextEnts.1, e.Type_ = Normal ∨ e.Type_ = AddNode ∨ e.Type_ = RemoveNode := by
  by_contra hc
  have hbad : ∃ e ∈ n.sm.nextEnts.1,
      ¬ (e.Type_ = Normal ∨ e.Type_ = AddNode ∨ e.Type_ = RemoveNode) := by
    by_contra hno
    apply hc
    intro e he
    by_contra hk
    exact hno ⟨e, he, hk⟩
  have herr : Node.Next unmarshal n = .error "unexpected entry type" := by
    simp [Node.Next, applyEnts_error_of_unknown unmarshal _ n.sm.nextEnts.2 hbad]
  rw [herr] at h
  cases h

theorem New_ok_of_no_overflow (id heartbeat election : Int)
    (h : isInt64 (heartbeat * 3)) (hge : election ≥ 3 * heartbeat) :
    New id heartbeat election =
      .ok { sm := newStateMachine id [id], elapsed := 0, election := election,
            heartbeat := heartbeat } := by
  unfold New
  rw [wrap64_of_isInt64 _ h, if_neg (by omega)]

theorem sampleStep_appendsOnly : appendsOnly sampleStep := by
  intro m sm
  refine ⟨((sampleStep m { sm with msgs := [] }).2).msgs, ?_⟩
  unfold sampleStep
  cases m.Type_ <;> simp only [] <;> (try split_ifs) <;> simp

theorem sampleStep_queueBlind : queueBlind sampleStep := by
  intro m sm q
  unfold sampleStep
  cases m.Type_ <;> simp only [] <;> (try split_ifs) <;> simp

theorem queueReadingStep_appendsOnly : appendsOnly queueReadingStep := by
  intro m sm
  unfold queueReadingStep
  split_ifs
  · exact ⟨[{ Type_ := msgAppResp }], rfl⟩
  · exact ⟨[], by simp⟩

theorem map_snd_ok {α β : Type} (x : Except String (α × β)) (b : β)
    (h : x.map Prod.snd = .ok b) : ∃ r, x = .ok r ∧ r.2 = b := by
  cases x with
  | error err => cases h
  | ok r =>
    refine ⟨r, rfl, ?_⟩
    injection h

theorem Step_timer (smStep : StepFn) (n : Node) (m : Message) (r : Bool × Node)
    (h : Node.Step smStep n m = .ok r) :
    r.2.election = n.election ∧ r.2.heartbeat = n.heartbeat ∧
      (r.2.elapsed = n.elapsed ∨ r.2.elapsed = 0) := by
  unfold Node.Step at h
  simp only [] at h
  split_ifs at h
  · injection h with h
    subst h
    exact ⟨rfl, rfl, Or.inl rfl⟩
  · injection h with h
    subst h
    refine ⟨rfl, rfl, ?_⟩
    show Node.scanResponses _ n.elapsed = n.elapsed ∨ Node.scanResponses _ n.elapsed = 0
    rw [scanResponses_eq]
    split_ifs
    · exact Or.inr rfl
    · exact Or.inl rfl

theorem Next_timer (unmarshal : List Nat → Option Config) (n : Node) (r : List Entry × Node)
    (h : Node.Next unmarshal n = .ok r) :
    r.2.election = n.election ∧ r.2.heartbeat = n.heartbeat ∧ r.2.elapsed = n.elapsed := by
  have hk := Next_known_of_ok unmarshal n r h
  rw [Next_of_known unmarshal n hk] at h
  injection h with h
  subst h
  exact ⟨rfl, rfl, rfl⟩

theorem Tick_timer (smStep : StepFn) (n n' : Node)
    (hint : isInt64 n.election) (hhe : n.heartbeat ≤ n.election)
    (h0 : 0 ≤ n.elapsed) (h1 : n.elapsed ≤ n.election)
    (h : Node.Tick smStep n = .ok n') :
    n'.election = n.election ∧ n'.heartbeat = n.heartbeat ∧
      0 ≤ n'.elapsed ∧ n'.elapsed ≤ n'.election := by
  by_cases hp : n.sm.promotable = true
  · by_cases hl : n.sm.state = stateLeader
    · by_cases ht : n.elapsed ≥ n.heartbeat
      · rw [Tick_of_timeout smStep n n.heartbeat msgBeat hp (by simp [hl]) ht] at h
        cases hs : Node.Step smStep n { Type_ := msgBeat } with
        | error err => rw [hs] at h; cases h
        | ok r =>
          rw [hs] at h
          injection h with h
          subst h
          obtain ⟨a, b, -⟩ := Step_timer smStep n _ r hs
          exact ⟨a, b, le_refl _, by show (0 : Int) ≤ r.2.election; omega⟩
      · have hlt : n.elapsed < n.heartbeat := by omega
        have hb : isInt64 n.elapsed ∧ isInt64 n.heartbeat := by
          unfold isInt64 at *
          omega
        rw [Tick_of_below smStep n n.heartbeat msgBeat hp (by simp [hl]) hb.1 hb.2 hlt] at h
        injection h with h
        subst h
        exact ⟨rfl, rfl, by show (0 : Int) ≤ n.elapsed + 1; omega,
          by show n.elapsed + 1 ≤ n.election; omega⟩
    · by_cases ht : n.elapsed ≥ n.election
      · rw [Tick_of_timeout smStep n n.election msgHup hp (by simp [hl]) ht] at h
        cases hs : Node.Step smStep n { Type_ := msgHup } with
        | error err => rw [hs] at h; cases h
        | ok r =>
          rw [hs] at h
          injection h with h
          subst h
          obtain ⟨a, b, -⟩ := Step_timer smStep n _ r hs
          exact ⟨a, b, le_refl _, by show (0 : Int) ≤ r.2.election; omega⟩
      · have hlt : n.elapsed < n.election := by omega
        have hb : isInt64 n.elapsed := by
          unfold isInt64 at *
          omega
        rw [Tick_of_below smStep n n.election msgHup hp (by simp [hl]) hb hint hlt] at h
        injection h with h
        subst h
        exact ⟨rfl, rfl, by show (0 : Int) ≤ n.elapsed + 1; omega,
          by show n.elapsed + 1 ≤ n.election; omega⟩
  · have hp' : n.sm.promotable = false := by simpa using hp
    simp [Node.Tick, hp'] at h
    subst h
    exact ⟨rfl, rfl, h0, h1⟩

theorem exec_timer (marshal : Config → Except String (List Nat))
    (unmarshal : List Nat → Option Config) (smStep : StepFn) (n n' : Node) (op : Op)
    (hint : isInt64 n.election) (hhe : n.heartbeat ≤ n.election)
    (h0 : 0 ≤ n.elapsed) (h1 : n.elapsed ≤ n.election)
    (h : Node.exec marshal unmarshal smStep n op = .ok n') :
    n'.election = n.election ∧ n'.heartbeat = n.heartbeat ∧
      0 ≤ n'.elapsed ∧ n'.elapsed ≤ n'.election := by
  have viaStep : ∀ m, (Node.Step smStep n m).map Prod.snd = .ok n' →
      n'.election = n.election ∧ n'.heartbeat = n.heartbeat ∧
        0 ≤ n'.elapsed ∧ n'.elapsed ≤ n'.election := by
    intro m hm
    obtain ⟨r, hr, rfl⟩ := map_snd_ok _ _ hm
    obtain ⟨a, b, c⟩ := Step_timer smStep n m r hr
    refine ⟨a, b, ?_, ?_⟩
    · rcases c with c | c <;> omega
    · rcases c with c | c <;> omega
  cases op with
  | Step m => exact viaStep m h
  | Tick => exact Tick_timer smStep n n' hint hhe h0 h1 h
  | Propose data => exact viaStep _ h
  | Campaign => exact viaStep _ h
  | Add id addr =>
    simp only [Node.exec, Node.Add, Node.updateConf] at h
    cases hm : marshal { NodeId := id, Addr := addr } with
    | error err => rw [hm] at h; cases h
    | ok data => rw [hm] at h; exact viaStep _ h
  | Remove id =>
    simp only [Node.exec, Node.Remove, Node.updateConf] at h
    cases hm : marshal { NodeId := id } with
    | error err => rw [hm] at h; cases h
    | ok data => rw [hm] at h; exact viaStep _ h
  | Next =>
    obtain ⟨r, hr, rfl⟩ := map_snd_ok _ _ h
    obtain ⟨a, b, c⟩ := Next_timer unmarshal n r hr
    exact ⟨a, b, by omega, by omega⟩

theorem run_timer (marshal : Config → Except String (List Nat))
    (unmarshal : List Nat → Option Config) (smStep : StepFn) (ops : List Op) (n n' : Node)
    (hint : isInt64 n.election) (hhe : n.heartbeat ≤ n.election)
    (h0 : 0 ≤ n.elapsed) (h1 : n.elapsed ≤ n.election)
    (h : Node.run marshal unmarshal smStep ops n = .ok n') :
    n'.election = n.election ∧ n'.heartbeat = n.heartbeat ∧
      0 ≤ n'.elapsed ∧ n'.elapsed ≤ n'.election := by
  induction ops generalizing n with
  | nil =>
    injection h with h
    subst h
    exact ⟨rfl, rfl, h0, h1⟩
  | cons op ops ih =>
    unfold Node.run at h
    cases hx : Node.exec marshal unmarshal smStep n op with
    | error err => rw [hx] at h; cases h
    | ok n1 =>
      rw [hx] at h
      obtain ⟨a, b, c, d⟩ := exec_timer marshal unmarshal smStep n n1 op hint hhe h0 h1 hx
      obtain ⟨a', b', c', d'⟩ := ih n1 (by rw [a]; exact hint) (by rw [a, b]; exact hhe) c d h
      exact ⟨by rw [a', a], by rw [b', b], c', d'⟩

theorem sampleStep_queue_grows (m : Message) (sm : stateMachine) :
    sm.msgs.length ≤ (sampleStep m sm).2.msgs.length := by
  obtain ⟨out, h⟩ := sampleStep_appendsOnly m sm
  simp [h]

theorem Tick_fire (smStep : StepFn) (n : Node) (timeout : Int) (msgType : messageType)
    (hp : n.sm.promotable = true)
    (hrole : (timeout, msgType) =
      if n.sm.state = stateLeader then (n.heartbeat, msgBeat) else (n.election, msgHup))
    (ht : n.elapsed ≥ timeout)
    (hq : (smStep { Type_ := msgType } n.sm).1 = true →
      n.sm.msgs.length ≤ (smStep { Type_ := msgType } n.sm).2.msgs.length) :
    Node.Tick smStep n =
      .ok { n with sm := (smStep { Type_ := msgType } n.sm).2, elapsed := 0 } := by
  rw [Tick_of_timeout smStep n timeout msgType hp hrole ht]
  cases hok : (smStep { Type_ := msgType } n.sm).1 with
  | false => rw [Step_of_reject smStep n _ hok]
  | true => rw [Step_of_accept smStep n _ hok (hq hok)]

theorem ticks_add (smStep : StepFn) (a b : Nat) (n : Node) :
    Node.ticks smStep (a + b) n =
      match Node.ticks smStep a n with
      | .error err => .error err
      | .ok n' => Node.ticks smStep b n' := by
  induction a generalizing n with
  | zero => simp [Node.ticks]
  | succ a ih =>
    rw [Nat.succ_add]
    simp only [Node.ticks]
    cases Node.Tick smStep n with
    | error err => rfl
    | ok n1 => exact ih n1

theorem ticks_below (smStep : StepFn) (T : Nat) (msgType : messageType) (r : Nat) :
    ∀ (n : Node) (a : Nat), n.sm.promotable = true →
      (((T : Int), msgType) =
        if n.sm.state = stateLeader then (n.heartbeat, msgBeat) else (n.election, msgHup)) →
      (T : Int) < 2 ^ 63 → n.elapsed = (a : Int) → a + r ≤ T →
      Node.ticks smStep r n = .ok { n with elapsed := ((a + r : Nat) : Int) } := by
  induction r with
  | zero =>
    intro n a _ _ _ ha _
    simp only [Node.ticks, Nat.add_zero]
    rw [← ha]
  | succ r ih =>
    intro n a hp hrole hT ha hr
    have he : isInt64 n.elapsed := by
      unfold isInt64
      omega
    have hto : isInt64 (T : Int) := by
      unfold isInt64
      omega
    have hlt : n.elapsed < (T : Int) := by omega
    simp only [Node.ticks]
    rw [Tick_of_below smStep n T msgType hp hrole he hto hlt]
    have hn := ih { n with elapsed := n.elapsed + 1 } (a + 1) hp hrole hT
      (by show n.elapsed + 1 = ((a + 1 : Nat) : Int); omega) (by omega)
    simp only [] at hn ⊢
    rw [hn]
    have hc : ((a + 1 + r : Nat) : Int) = ((a + (r + 1) : Nat) : Int) := by omega
    rw [hc]

theorem ticks_periods (smStep : StepFn) (n : Node) (T : Nat) (msgType : messageType) (J : Nat)
    (h0 : n.elapsed = 0) (hT : (T : Int) < 2 ^ 63)
    (hstay : ∀ j, j < J →
      (stateMachine.afterTriggers smStep msgType j n.sm).promotable = true ∧
      (((T : Int), msgType) =
        if (stateMachine.afterTriggers smStep msgType j n.sm).state = stateLeader
        then (n.heartbeat, msgBeat) else (n.election, msgHup)) ∧
      ((smStep { Type_ := msgType } (stateMachine.afterTriggers smStep msgType j n.sm)).1 = true →
        (stateMachine.afterTriggers smStep msgType j n.sm).msgs.length ≤
          (smStep { Type_ := msgType }
            (stateMachine.afterTriggers smStep msgType j n.sm)).2.msgs.length)) :
    ∀ j, j ≤ J → Node.ticks smStep (j * (T + 1)) n =
      .ok { n with sm := stateMachine.afterTriggers smStep msgType j n.sm, elapsed := 0 } := by
  intro j
  induction j with
  | zero =>
    intro _
    simp only [Nat.zero_mul, Node.ticks, stateMachine.afterTriggers]
    rw [← h0]
  | succ j ih =>
    intro hj
    obtain ⟨hp, hrole, hq⟩ := hstay j (by omega)
    have e : (j + 1) * (T + 1) = j * (T + 1) + (T + 1) := by ring
    rw [e, ticks_add, ih (by omega)]
    simp only []
    rw [ticks_add]
    have hb := ticks_below smStep T msgType T
      { n with sm := stateMachine.afterTriggers smStep msgType j n.sm, elapsed := 0 } 0
      hp hrole hT rfl (by omega)
    rw [hb]
    simp only [Node.ticks, Nat.zero_add]
    rw [Tick_fire smStep _ (T : Int) msgType hp hrole (le_refl _) hq]
    rfl

theorem Next_of_nothing_pending (unmarshal : List Nat → Option Config) (n : Node)
    (h : n.sm.log.applied = n.sm.log.committed) :
    Node.Next unmarshal n = .ok ([], n) := by
  simp [Node.Next, nextEnts_of_applied_eq n.sm h, Node.applyEnts]

theorem Next_log (unmarshal : List Nat → Option Config) (n : Node) :
    (foldConf unmarshal n.sm.nextEnts.1 n.sm.nextEnts.2).log = n.sm.nextEnts.2.log :=
  foldConf_log unmarshal _ _

/-! ## Theorems -/

/-- C1 (the code at an input where the product overflows): for `heartbeat = 2^62`
and `election = 0` the election interval is below three times the heartbeat
interval as exact integers, the machine product `heartbeat*3` is `-2^62`, and
`New` returns a node instead of failing. -/
theorem C1_New_accepts_on_overflow :
    isInt64 (2 ^ 62) ∧ isInt64 0 ∧ (0 : Int) < 3 * 2 ^ 62 ∧ wrap64 (2 ^ 62 * 3) = -(2 ^ 62) ∧
    New 1 (2 ^ 62) 0 =
      .ok { sm := newStateMachine 1 [1], elapsed := 0, election := 0, heartbeat := 2 ^ 62 } := by
  refine ⟨by decide, by decide, by decide, by decide, ?_⟩
  have h : ¬ ((0 : Int) < wrap64 (2 ^ 62 * 3)) := by decide
  unfold New
  rw [if_neg h]

/-- Where the product `heartbeat*3` does not overflow, `New` fails exactly when
the election interval is below three times the heartbeat interval. -/
theorem New_fails_iff_of_no_overflow (id heartbeat election : Int)
    (h : isInt64 (heartbeat * 3)) :
    (∃ msg, New id heartbeat election = .error msg) ↔ election < 3 * heartbeat := by
  unfold New
  rw [wrap64_of_isInt64 _ h]
  by_cases hlt : election < heartbeat * 3
  · simp [hlt]; omega
  · simp [hlt]; omega

/-- C2: `Node.Step(m)` returns exactly the boolean that the state machine's
`Step(m)` returns (the state machine's queue being no shorter after an accepted
message than before, as it is for a state machine that only enqueues), the
node then wraps the state machine's new state with unchanged intervals, and
when the result is false the node is otherwise exactly as before: `elapsed`,
`election` and `heartbeat` are unchanged. -/
theorem C2_Step_returns_state_machine_result (smStep : StepFn) (n : Node) (m : Message)
    (hq : (smStep m n.sm).1 = true → n.sm.msgs.length ≤ (smStep m n.sm).2.msgs.length) :
    ∃ n', Node.Step smStep n m = .ok ((smStep m n.sm).1, n') ∧
      n'.sm = (smStep m n.sm).2 ∧ n'.election = n.election ∧ n'.heartbeat = n.heartbeat ∧
      ((smStep m n.sm).1 = false →
        n'.elapsed = n.elapsed ∧ n' = { n with sm := (smStep m n.sm).2 }) := by
  cases hok : (smStep m n.sm).1 with
  | false =>
    exact ⟨_, Step_of_reject smStep n m hok, rfl, rfl, rfl, fun _ => ⟨rfl, rfl⟩⟩
  | true =>
    refine ⟨_, Step_of_accept smStep n m hok (hq hok), rfl, rfl, rfl, ?_⟩
    intro h
    cases h

/-- C2 at the stale vote request of scenario 3: the sample handler rejects it,
`Node.Step` returns false, and term and timer are unchanged. -/
theorem C2_Step_returns_state_machine_result_witness :
    (sampleStep staleVote sampleNode.sm).1 = false ∧
    ∃ n', Node.Step sampleStep sampleNode staleVote = .ok ((sampleStep staleVote sampleNode.sm).1, n') ∧
      n'.sm = (sampleStep staleVote sampleNode.sm).2 ∧ n'.election = sampleNode.election ∧
      n'.heartbeat = sampleNode.heartbeat ∧
      ((sampleStep staleVote sampleNode.sm).1 = false →
        n'.elapsed = sampleNode.elapsed ∧
        n' = { sampleNode with sm := (sampleStep staleVote sampleNode.sm).2 }) :=
  ⟨by decide, C2_Step_returns_state_machine_result sampleStep sampleNode staleVote (by decide)⟩

/-- C3: for a message the state machine accepts, with `out` the messages it
queued during this step: if `out` holds an append response, or a vote response
with `Index ≥ 0`, then `elapsed` is 0 after `Node.Step`; if `out` holds neither
an append response nor a vote response, `elapsed` is as before. -/
theorem C3_Step_resets_on_response (smStep : StepFn) (n : Node) (m : Message)
    (out : List Message)
    (hacc : (smStep m n.sm).1 = true)
    (hq : (smStep m n.sm).2.msgs = n.sm.msgs ++ out) :
    ∃ n', Node.Step smStep n m = .ok (true, n') ∧ n'.sm = (smStep m n.sm).2 ∧
      ((∃ r ∈ out, r.Type_ = msgAppResp ∨ (r.Type_ = msgVoteResp ∧ r.Index ≥ 0)) →
        n'.elapsed = 0) ∧
      ((∀ r ∈ out, r.Type_ ≠ msgAppResp ∧ r.Type_ ≠ msgVoteResp) →
        n'.elapsed = n.elapsed) := by
  have hlen : n.sm.msgs.length ≤ (smStep m n.sm).2.msgs.length := by simp [hq]
  refine ⟨_, Step_of_accept smStep n m hacc hlen, rfl, ?_, ?_⟩
  · rintro ⟨r, hr, hres⟩
    have hany : out.any Message.resets = true := by
      rw [List.any_eq_true]
      refine ⟨r, hr, ?_⟩
      rcases hres with h | ⟨h1, h2⟩
      · simp [Message.resets, h]
      · simp [Message.resets, h1, h2]
    simp [hq, scanResponses_eq, hany]
  · intro hnone
    have hany : out.any Message.resets = false := by
      rw [List.any_eq_false]
      intro r hr
      have := hnone r hr
      simp [Message.resets, this.1, this.2]
    simp [hq, scanResponses_eq, hany]

/-- C3 at an append request the sample follower accepts: the queued append
response resets `elapsed` from 5 to 0. -/
theorem C3_Step_resets_on_response_witness :
    sampleNode.elapsed = 5 ∧
    ∃ n', Node.Step sampleStep sampleNode matchingApp = .ok (true, n') ∧
      n'.sm = (sampleStep matchingApp sampleNode.sm).2 ∧
      ((∃ r ∈ [({ Type_ := msgAppResp, To := 2, From := 1, Term := 2, Index := 0 } : Message)],
          r.Type_ = msgAppResp ∨ (r.Type_ = msgVoteResp ∧ r.Index ≥ 0)) →
        n'.elapsed = 0) ∧
      ((∀ r ∈ [({ Type_ := msgAppResp, To := 2, From := 1, Term := 2, Index := 0 } : Message)],
          r.Type_ ≠ msgAppResp ∧ r.Type_ ≠ msgVoteResp) →
        n'.elapsed = sampleNode.elapsed) :=
  ⟨by decide, C3_Step_resets_on_response sampleStep sampleNode matchingApp
    [{ Type_ := msgAppResp, To := 2, From := 1, Term := 2, Index := 0 }] (by decide) (by decide)⟩

/-- C4 fails as stated: the sample follower accepts an append request that its
log does not match and queues exactly one message, an append response
carrying the negative index `-1`; every response queued during this step thus
carries a negative index, yet `Node.Step` sets `elapsed` from 5 to 0. -/
theorem C4_rejecting_append_response_resets :
    (sampleStep mismatchedApp sampleNode.sm).1 = true ∧
    (sampleStep mismatchedApp sampleNode.sm).2.msgs = sampleNode.sm.msgs ++
      [{ Type_ := msgAppResp, To := 2, From := 1, Term := 2, Index := -1 }] ∧
    (∀ r ∈ [({ Type_ := msgAppResp, To := 2, From := 1, Term := 2, Index := -1 } : Message)],
      (r.Type_ = msgAppResp ∨ r.Type_ = msgVoteResp) → r.Index < 0) ∧
    sampleNode.elapsed = 5 ∧
    ∃ n', Node.Step sampleStep sampleNode mismatchedApp = .ok (true, n') ∧ n'.elapsed = 0 ∧
      n'.elapsed ≠ sampleNode.elapsed := by
  refine ⟨by decide, by decide, by decide, by decide,
    ⟨_, Step_of_accept sampleStep sampleNode mismatchedApp (by decide) (by decide), ?_, ?_⟩⟩
  · decide
  · decide

/-- C4 as amended: for a message the state machine accepts, with `out` the
messages it queued during this step: if `out` holds no append response and
every vote response in `out` carries a negative `Index`, then `elapsed` is the
same after `Node.Step` as before. -/
theorem C4_Step_keeps_elapsed_without_affirmation (smStep : StepFn) (n : Node) (m : Message)
    (out : List Message)
    (hacc : (smStep m n.sm).1 = true)
    (hq : (smStep m n.sm).2.msgs = n.sm.msgs ++ out)
    (happ : ∀ r ∈ out, r.Type_ ≠ msgAppResp)
    (hvote : ∀ r ∈ out, r.Type_ = msgVoteResp → r.Index < 0) :
    ∃ n', Node.Step smStep n m = .ok (true, n') ∧ n'.elapsed = n.elapsed := by
  have hlen : n.sm.msgs.length ≤ (smStep m n.sm).2.msgs.length := by simp [hq]
  refine ⟨_, Step_of_accept smStep n m hacc hlen, ?_⟩
  have hany : out.any Message.resets = false := by
    rw [List.any_eq_false]
    intro r hr
    have h1 := happ r hr
    have h2 := hvote r hr
    by_cases hv : r.Type_ = msgVoteResp
    · have := h2 hv
      simp [Message.resets, hv, this]
    · simp [Message.resets, h1, hv]
  simp [hq, scanResponses_eq, hany]

/-- C4 as amended, at a vote request the sample replica denies: it has voted
for replica 3, answers replica 2 with a vote response of index `-1`, and
`elapsed` stays 5. -/
theorem C4_Step_keeps_elapsed_without_affirmation_witness :
    sampleNode.elapsed = 5 ∧
    ∃ n', Node.Step sampleStep { sampleNode with sm := { sampleNode.sm with vote := some 3 } }
        { Type_ := msgVote, From := 2, Term := 2, Index := 0 } = .ok (true, n') ∧
      n'.elapsed = sampleNode.elapsed :=
  ⟨by decide, C4_Step_keeps_elapsed_without_affirmation sampleStep
    { sampleNode with sm := { sampleNode.sm with vote := some 3 } }
    { Type_ := msgVote, From := 2, Term := 2, Index := 0 }
    [{ Type_ := msgVoteResp, To := 2, From := 1, Term := 2, Index := -1 }]
    (by decide) (by decide) (by decide) (by decide)⟩

/-- C5: for every node whose pending entries (what `nextEnts` reports: entry
number `i` of the batch is the log entry with index `applied + i + 1`, up to
index `commit`) all have a kind in `Normal`, `AddNode`, `RemoveNode`, `Next`
returns exactly that sequence, whatever the payload decoder does. -/
theorem C5_Next_returns_pending_entries (unmarshal : List Nat → Option Config) (n : Node)
    (h : ∀ e ∈ n.sm.nextEnts.1, e.Type_ = Normal ∨ e.Type_ = AddNode ∨ e.Type_ = RemoveNode) :
    (∃ n', Node.Next unmarshal n = .ok (n.sm.nextEnts.1, n')) ∧
    n.sm.nextEnts.1.length = min n.sm.log.committed n.sm.log.ents.length - n.sm.log.applied ∧
    ∀ i, i < n.sm.nextEnts.1.length → n.sm.nextEnts.1[i]? = n.sm.log.ents[n.sm.log.applied + i]? :=
  ⟨⟨_, Next_of_known unmarshal n h⟩, nextEnts_length n.sm, nextEnts_getElem? n.sm⟩

/-- C5 at the sample node with three pending entries, one of them a
configuration entry whose payload fails to decode: all three are returned in
log order. -/
theorem C5_Next_returns_pending_entries_witness :
    pendingNode.sm.nextEnts.1 =
      [{ Type_ := AddNode, Term := 1, Data := [7, 7] },
       { Type_ := AddNode, Term := 1, Data := [3] },
       { Type_ := RemoveNode, Term := 1, Data := [2] }] ∧
    sampleUnmarshal [7, 7] = none ∧
    ((∃ n', Node.Next sampleUnmarshal pendingNode = .ok (pendingNode.sm.nextEnts.1, n')) ∧
      pendingNode.sm.nextEnts.1.length =
        min pendingNode.sm.log.committed pendingNode.sm.log.ents.length -
          pendingNode.sm.log.applied ∧
      ∀ i, i < pendingNode.sm.nextEnts.1.length →
        pendingNode.sm.nextEnts.1[i]? = pendingNode.sm.log.ents[pendingNode.sm.log.applied + i]?) :=
  ⟨by decide, by decide, C5_Next_returns_pending_entries sampleUnmarshal pendingNode (by decide)⟩

/-- C7: for every batch of pending entries whose kinds are all known, `Next`
returns, and the state machine it leaves is the left-to-right fold of
`applyConf` over the batch, run on the state machine as `nextEnts` left it; its
membership set is that of the fold over the batch from the state machine
before the call.  An entry whose payload fails to decode changes nothing, so
the result is the fold over the batch without that entry: the entries after
it are applied all the same. -/
theorem C7_Next_membership_is_fold (unmarshal : List Nat → Option Config) (n : Node)
    (h : ∀ e ∈ n.sm.nextEnts.1, e.Type_ = Normal ∨ e.Type_ = AddNode ∨ e.Type_ = RemoveNode) :
    ∃ n', Node.Next unmarshal n = .ok (n.sm.nextEnts.1, n') ∧
      n'.sm = foldConf unmarshal n.sm.nextEnts.1 n.sm.nextEnts.2 ∧
      n'.sm.ins = (n.sm.nextEnts.1.foldl (applyConf unmarshal) n.sm).ins ∧
      ∀ pre bad post, n.sm.nextEnts.1 = pre ++ bad :: post → unmarshal bad.Data = none →
        n'.sm = foldConf unmarshal (pre ++ post) n.sm.nextEnts.2 ∧
        n'.sm.ins = ((pre ++ post).foldl (applyConf unmarshal) n.sm).ins := by
  have hins : ∀ ents, (foldConf unmarshal ents n.sm.nextEnts.2).ins =
      (ents.foldl (applyConf unmarshal) n.sm).ins :=
    fun ents => foldConf_ins unmarshal ents n.sm.nextEnts.2 n.sm rfl
  refine ⟨_, Next_of_known unmarshal n h, rfl, hins _, ?_⟩
  intro pre bad post hb hu
  have hskip : foldConf unmarshal n.sm.nextEnts.1 n.sm.nextEnts.2 =
      foldConf unmarshal (pre ++ post) n.sm.nextEnts.2 := by
    rw [hb, foldConf_skip unmarshal pre post bad n.sm.nextEnts.2 (Or.inl hu)]
  refine ⟨hskip, ?_⟩
  show (foldConf unmarshal n.sm.nextEnts.1 n.sm.nextEnts.2).ins = _
  rw [hskip]
  exact hins _

/-- C7 at the sample node: the malformed `AddNode` entry is skipped, node 3 is
added and node 2 removed, so the membership `{1, 2}` becomes `{1, 3}`. -/
theorem C7_Next_membership_is_fold_witness :
    pendingNode.sm.ins = {1, 2} ∧
    (pendingNode.sm.nextEnts.1.foldl (applyConf sampleUnmarshal) pendingNode.sm).ins = {1, 3} ∧
    ∃ n', Node.Next sampleUnmarshal pendingNode = .ok (pendingNode.sm.nextEnts.1, n') ∧
      n'.sm = foldConf sampleUnmarshal pendingNode.sm.nextEnts.1 pendingNode.sm.nextEnts.2 ∧
      n'.sm.ins = (pendingNode.sm.nextEnts.1.foldl (applyConf sampleUnmarshal) pendingNode.sm).ins ∧
      ∀ pre bad post, pendingNode.sm.nextEnts.1 = pre ++ bad :: post →
        sampleUnmarshal bad.Data = none →
        n'.sm = foldConf sampleUnmarshal (pre ++ post) pendingNode.sm.nextEnts.2 ∧
        n'.sm.ins = ((pre ++ post).foldl (applyConf sampleUnmarshal) pendingNode.sm).ins :=
  ⟨by decide, by decide, C7_Next_membership_is_fold sampleUnmarshal pendingNode (by decide)⟩

/-- C8: for every batch of pending entries, `Next` panics with "unexpected
entry type" if and only if the batch holds an entry whose kind is none of
`Normal`, `AddNode`, `RemoveNode`; and it returns if and only if every kind in
the batch is one of the three. -/
theorem C8_Next_panics_iff_unknown_kind (unmarshal : List Nat → Option Config) (n : Node) :
    (Node.Next unmarshal n = .error "unexpected entry type" ↔
      ∃ e ∈ n.sm.nextEnts.1, ¬ (e.Type_ = Normal ∨ e.Type_ = AddNode ∨ e.Type_ = RemoveNode)) ∧
    ((∃ msg, Node.Next unmarshal n = .error msg) ↔
      ∃ e ∈ n.sm.nextEnts.1, ¬ (e.Type_ = Normal ∨ e.Type_ = AddNode ∨ e.Type_ = RemoveNode)) ∧
    ((∃ r, Node.Next unmarshal n = .ok r) ↔
      ∀ e ∈ n.sm.nextEnts.1, e.Type_ = Normal ∨ e.Type_ = AddNode ∨ e.Type_ = RemoveNode) := by
  by_cases h : ∀ e ∈ n.sm.nextEnts.1, e.Type_ = Normal ∨ e.Type_ = AddNode ∨ e.Type_ = RemoveNode
  · have hok := Next_of_known unmarshal n h
    have hno : ¬ ∃ e ∈ n.sm.nextEnts.1,
        ¬ (e.Type_ = Normal ∨ e.Type_ = AddNode ∨ e.Type_ = RemoveNode) := by
      rintro ⟨e, he, hbad⟩
      exact hbad (h e he)
    refine ⟨⟨fun he => ?_, fun hb => absurd hb hno⟩, ⟨fun he => ?_, fun hb => absurd hb hno⟩,
      ⟨fun _ => h, fun _ => ⟨_, hok⟩⟩⟩
    · rw [hok] at he
      cases he
    · obtain ⟨msg, he⟩ := he
      rw [hok] at he
      cases he
  · have hbad : ∃ e ∈ n.sm.nextEnts.1,
        ¬ (e.Type_ = Normal ∨ e.Type_ = AddNode ∨ e.Type_ = RemoveNode) := by
      by_contra hc
      apply h
      intro e he
      by_contra hk
      exact hc ⟨e, he, hk⟩
    have herr : Node.Next unmarshal n = .error "unexpected entry type" := by
      simp [Node.Next, applyEnts_error_of_unknown unmarshal _ n.sm.nextEnts.2 hbad]
    refine ⟨⟨fun _ => hbad, fun _ => herr⟩, ⟨fun _ => hbad, fun _ => ⟨_, herr⟩⟩,
      ⟨fun hr => ?_, fun hk => absurd hk h⟩⟩
    obtain ⟨r, hr⟩ := hr
    rw [herr] at hr
    cases hr

/-- C9: for every node whose own id is not in the membership set, whatever its
role and its `elapsed`, and whatever the state machine would do with a
message, `Tick` returns the node exactly as it was: `elapsed`, the state
machine's state and its outbound queue are unchanged. -/
theorem C9_Tick_noop_when_not_promotable (smStep : StepFn) (n : Node)
    (h : n.sm.id ∉ n.sm.ins) :
    n.sm.promotable = false ∧ Node.Tick smStep n = .ok n := by
  have hp : n.sm.promotable = false := by simp [stateMachine.promotable, h]
  exact ⟨hp, by simp [Node.Tick, hp]⟩

/-- C9 at the sample removed node, a leader far past its heartbeat timeout. -/
theorem C9_Tick_noop_when_not_promotable_witness :
    removedNode.sm.state = stateLeader ∧ removedNode.elapsed ≥ removedNode.heartbeat ∧
    removedNode.sm.promotable = false ∧ Node.Tick sampleStep removedNode = .ok removedNode :=
  ⟨by decide, by decide, C9_Tick_noop_when_not_promotable sampleStep removedNode (by decide)⟩

/-- C10: for every promotable node, with `timeout, msgType` chosen as `Tick`
chooses them (`heartbeat, msgBeat` for a leader, `election, msgHup` otherwise)
and `elapsed ≥ timeout`: `Tick` is `Node.Step` of the one message
`Message{Type: msgType}`, which has no entries, followed by `elapsed = 0`.  It
returns (the state machine only enqueues), the state machine is left as its
handler leaves it on that message, and `elapsed` is 0 whether or not the
trigger was accepted. -/
theorem C10_Tick_fires_trigger (smStep : StepFn) (n : Node) (timeout : Int)
    (msgType : messageType)
    (hp : n.sm.promotable = true)
    (hrole : (timeout, msgType) =
      if n.sm.state = stateLeader then (n.heartbeat, msgBeat) else (n.election, msgHup))
    (ht : n.elapsed ≥ timeout)
    (hq : (smStep { Type_ := msgType } n.sm).1 = true →
      n.sm.msgs.length ≤ (smStep { Type_ := msgType } n.sm).2.msgs.length) :
    ({ Type_ := msgType } : Message).Entries = [] ∧
    ∃ n1 n', Node.Step smStep n { Type_ := msgType } =
        .ok ((smStep { Type_ := msgType } n.sm).1, n1) ∧
      Node.Tick smStep n = .ok n' ∧ n' = { n1 with elapsed := 0 } ∧
      n'.sm = (smStep { Type_ := msgType } n.sm).2 ∧ n'.elapsed = 0 ∧
      n'.election = n.election ∧ n'.heartbeat = n.heartbeat := by
  refine ⟨rfl, ?_⟩
  have htick := Tick_of_timeout smStep n timeout msgType hp hrole ht
  cases hok : (smStep { Type_ := msgType } n.sm).1 with
  | false =>
    have hs := Step_of_reject smStep n { Type_ := msgType } hok
    rw [hs] at htick
    exact ⟨_, _, hs, htick, rfl, rfl, rfl, rfl, rfl⟩
  | true =>
    have hs := Step_of_accept smStep n { Type_ := msgType } hok (hq hok)
    rw [hs] at htick
    exact ⟨_, _, hs, htick, rfl, rfl, rfl, rfl, rfl⟩

/-- C10 at the sample follower once `elapsed` has reached the election interval
10: `Tick` passes `msgHup`, the replica becomes a candidate of term 3 with a
vote request queued for replica 2, and `elapsed` is 0. -/
theorem C10_Tick_fires_trigger_witness :
    (sampleStep { Type_ := msgHup } sampleNode.sm).2.state = stateCandidate ∧
    (sampleStep { Type_ := msgHup } sampleNode.sm).2.msgs =
      [{ Type_ := msgVote, To := 2, From := 1, Term := 3, Index := 0 }] ∧
    ({ Type_ := msgHup } : Message).Entries = [] ∧
    ∃ n1 n', Node.Step sampleStep { sampleNode with elapsed := 10 } { Type_ := msgHup } =
        .ok ((sampleStep { Type_ := msgHup } sampleNode.sm).1, n1) ∧
      Node.Tick sampleStep { sampleNode with elapsed := 10 } = .ok n' ∧
      n' = { n1 with elapsed := 0 } ∧
      n'.sm = (sampleStep { Type_ := msgHup } sampleNode.sm).2 ∧ n'.elapsed = 0 ∧
      n'.election = sampleNode.election ∧ n'.heartbeat = sampleNode.heartbeat :=
  ⟨by decide, by simp [sampleStep, sampleNode, log.lastIndex],
    C10_Tick_fires_trigger sampleStep { sampleNode with elapsed := 10 } 10 msgHup
      (by decide) (by decide) (by decide) (by intro _; simp [sampleStep])⟩

/-- C11: for every promotable node whose `elapsed` is below the timeout of its
current role (`heartbeat` for a leader, `election` otherwise; both machine
integers), `Tick` returns the node with `elapsed` increased by exactly one and
everything else, the state machine and its queue included, unchanged, whatever
the state machine would do with a message. -/
theorem C11_Tick_increments_elapsed (smStep : StepFn) (n : Node) (timeout : Int)
    (msgType : messageType)
    (hp : n.sm.promotable = true)
    (hrole : (timeout, msgType) =
      if n.sm.state = stateLeader then (n.heartbeat, msgBeat) else (n.election, msgHup))
    (he : isInt64 n.elapsed) (hto : isInt64 timeout)
    (hlt : n.elapsed < timeout) :
    ∃ n', Node.Tick smStep n = .ok n' ∧ n'.elapsed = n.elapsed + 1 ∧ n'.sm = n.sm ∧
      n'.sm.msgs = n.sm.msgs ∧ n'.election = n.election ∧ n'.heartbeat = n.heartbeat ∧
      n' = { n with elapsed := n.elapsed + 1 } :=
  ⟨_, Tick_of_below smStep n timeout msgType hp hrole he hto hlt, rfl, rfl, rfl, rfl, rfl, rfl⟩

/-- C11 at the sample follower, five ticks into an election interval of 10:
`elapsed` becomes 6. -/
theorem C11_Tick_increments_elapsed_witness :
    sampleNode.elapsed = 5 ∧ sampleNode.election = 10 ∧
    ∃ n', Node.Tick sampleStep sampleNode = .ok n' ∧ n'.elapsed = sampleNode.elapsed + 1 ∧
      n'.sm = sampleNode.sm ∧ n'.sm.msgs = sampleNode.sm.msgs ∧
      n'.election = sampleNode.election ∧ n'.heartbeat = sampleNode.heartbeat ∧
      n' = { sampleNode with elapsed := sampleNode.elapsed + 1 } :=
  ⟨by decide, by decide,
    C11_Tick_increments_elapsed sampleStep sampleNode 10 msgHup
      (by decide) (by decide) (by decide) (by decide) (by decide)⟩

/-- C14: for every node and payload, `Propose(data)` is `Node.Step` of the one
message of type `msgProp` that carries exactly one entry, of kind `Normal`
with `Data = data`, with the boolean dropped; when the state machine rejects
the message `Propose` still returns normally, handing back nothing but the
node with the state machine as its handler left it. -/
theorem C14_Propose_is_Step_of_proposal (smStep : StepFn) (n : Node) (data : List Nat) :
    Node.Propose smStep n data =
      (Node.Step smStep n
        { Type_ := msgProp, Entries := [{ Type_ := Normal, Data := data }] }).map Prod.snd ∧
    ((smStep { Type_ := msgProp, Entries := [{ Type_ := Normal, Data := data }] } n.sm).1 = false →
      Node.Propose smStep n data = .ok { n with
        sm := (smStep { Type_ := msgProp, Entries := [{ Type_ := Normal, Data := data }] }
          n.sm).2 }) := by
  refine ⟨rfl, fun h => ?_⟩
  show (Node.Step smStep n _).map Prod.snd = _
  rw [Step_of_reject smStep n _ h]
  rfl

/-- C14 at the sample follower, which drops proposals: `Propose` returns the
node unchanged and reports nothing. -/
theorem C14_Propose_is_Step_of_proposal_witness :
    Node.Propose sampleStep sampleNode [120] = .ok sampleNode ∧
    Node.Propose sampleStep sampleNode [120] =
      (Node.Step sampleStep sampleNode
        { Type_ := msgProp, Entries := [{ Type_ := Normal, Data := [120] }] }).map Prod.snd :=
  ⟨by rfl, (C14_Propose_is_Step_of_proposal sampleStep sampleNode [120]).1⟩

/-- C15: for every node, whatever its `elapsed`, `Campaign` is `Node.Step` of
the one message `Message{Type: msgHup}` with the boolean dropped, and it does
not set `elapsed` itself: when the state machine rejects the trigger, or
accepts it and queues no append response and no vote response with
`Index ≥ 0`, `elapsed` is the same after `Campaign` as before. -/
theorem C15_Campaign_is_Step_of_msgHup (smStep : StepFn) (n : Node) :
    Node.Campaign smStep n = (Node.Step smStep n { Type_ := msgHup }).map Prod.snd ∧
    ((smStep { Type_ := msgHup } n.sm).1 = false →
      Node.Campaign smStep n = .ok { n with sm := (smStep { Type_ := msgHup } n.sm).2 }) ∧
    (∀ out, (smStep { Type_ := msgHup } n.sm).1 = true →
      (smStep { Type_ := msgHup } n.sm).2.msgs = n.sm.msgs ++ out →
      (∀ r ∈ out, r.Type_ ≠ msgAppResp ∧ (r.Type_ = msgVoteResp → r.Index < 0)) →
      Node.Campaign smStep n = .ok { n with sm := (smStep { Type_ := msgHup } n.sm).2 }) := by
  refine ⟨rfl, fun h => ?_, fun out hacc hq hout => ?_⟩
  · show (Node.Step smStep n _).map Prod.snd = _
    rw [Step_of_reject smStep n _ h]
    rfl
  · have hlen : n.sm.msgs.length ≤ (smStep { Type_ := msgHup } n.sm).2.msgs.length := by
      simp [hq]
    have hany : out.any Message.resets = false := by
      rw [List.any_eq_false]
      intro r hr
      obtain ⟨h1, h2⟩ := hout r hr
      by_cases hv : r.Type_ = msgVoteResp
      · have := h2 hv
        simp [Message.resets, hv, this]
      · simp [Message.resets, h1, hv]
    show (Node.Step smStep n _).map Prod.snd = _
    rw [Step_of_accept smStep n _ hacc hlen]
    simp [hq, scanResponses_eq, hany, Except.map]

/-- C15 at the sample follower with `elapsed = 5`, below its election interval
10: `Campaign` makes it a candidate at once and leaves `elapsed` at 5. -/
theorem C15_Campaign_is_Step_of_msgHup_witness :
    sampleNode.elapsed = 5 ∧ sampleNode.elapsed < sampleNode.election ∧
    (sampleStep { Type_ := msgHup } sampleNode.sm).2.state = stateCandidate ∧
    Node.Campaign sampleStep sampleNode =
      .ok { sampleNode with sm := (sampleStep { Type_ := msgHup } sampleNode.sm).2 } :=
  ⟨by decide, by decide, by decide,
    (C15_Campaign_is_Step_of_msgHup sampleStep sampleNode).2.2
      [{ Type_ := msgVote, To := 2, From := 1, Term := 3, Index := 0 }]
      (by decide) (by simp [sampleStep, sampleNode, log.lastIndex]) (by decide)⟩

/-- C16 (the code at an input where the product overflows): for
`heartbeat = -2^62` and `election = 0` the election interval is at least three
times the heartbeat interval as exact integers, the machine product
`heartbeat*3` is `2^62`, and `New` panics instead of returning a node. -/
theorem C16_New_panics_on_overflow :
    isInt64 (-(2 ^ 62)) ∧ isInt64 0 ∧ (0 : Int) ≥ 3 * -(2 ^ 62) ∧
    wrap64 (-(2 ^ 62) * 3) = 2 ^ 62 ∧
    New 1 (-(2 ^ 62)) 0 =
      .error "election is least three times as heartbeat [election: %d, heartbeat: %d]" := by
  refine ⟨by decide, by decide, by decide, by decide, ?_⟩
  have h : (0 : Int) < wrap64 (-(2 ^ 62) * 3) := by decide
  unfold New
  rw [if_pos h]

/-- Where the product `heartbeat*3` does not overflow and the election interval
is at least three times the heartbeat interval, `New` returns a node with
`elapsed = 0`, the given intervals, `Id() = id`, and a state machine
constructed from `id` and the one-member list `[id]`, whose membership set is
`{id}`. -/
theorem New_returns_node_of_no_overflow (id heartbeat election : Int)
    (h : isInt64 (heartbeat * 3)) (hge : election ≥ 3 * heartbeat) :
    ∃ n, New id heartbeat election = .ok n ∧ n.elapsed = 0 ∧ n.heartbeat = heartbeat ∧
      n.election = election ∧ n.Id = id ∧ n.sm = newStateMachine id [id] ∧ n.sm.ins = {id} := by
  refine ⟨_, New_ok_of_no_overflow id heartbeat election h hge, rfl, rfl, rfl, rfl, rfl, ?_⟩
  simp [newStateMachine]

/-- C17 fails as stated: the sample removed node is not promotable, yet
`Campaign` passes `msgHup` to the state machine, which becomes a candidate of
the next term and queues a vote request for replica 2. -/
theorem C17_Campaign_of_non_member_passes_msgHup :
    removedNode.sm.promotable = false ∧ removedNode.sm.state = stateLeader ∧
    removedNode.sm.term = 4 ∧ removedNode.sm.msgs = [] ∧
    ∃ n', Node.Campaign sampleStep removedNode = .ok n' ∧
      n'.sm = (sampleStep { Type_ := msgHup } removedNode.sm).2 ∧
      n'.sm.state = stateCandidate ∧ n'.sm.term = 5 ∧
      n'.sm.msgs = [{ Type_ := msgVote, To := 2, From := 1, Term := 5, Index := 0 }] := by
  have hq : (sampleStep { Type_ := msgHup } removedNode.sm).2.msgs =
      [{ Type_ := msgVote, To := 2, From := 1, Term := 5, Index := 0 }] := by
    simp [sampleStep, removedNode, log.lastIndex]
  have hs := Step_of_accept sampleStep removedNode { Type_ := msgHup } (by decide)
    (by rw [hq]; decide)
  have hc : Node.Campaign sampleStep removedNode = .ok { removedNode with
      sm := (sampleStep { Type_ := msgHup } removedNode.sm).2,
      elapsed := Node.scanResponses
        ((sampleStep { Type_ := msgHup } removedNode.sm).2.msgs.drop removedNode.sm.msgs.length)
        removedNode.elapsed } := by
    show (Node.Step sampleStep removedNode { Type_ := msgHup }).map Prod.snd = _
    rw [hs]
    rfl
  exact ⟨by decide, by decide, by decide, by decide, _, hc, rfl, by decide, by decide, hq⟩

/-- C17 as amended: for every node that is not promotable, `Tick` passes
neither `msgHup` nor `msgBeat` to the state machine (it returns the node as it
was, whatever the handler), whereas `Campaign` has no membership guard: it is
`Node.Step` of `Message{Type: msgHup}`, so the state machine is left as its
handler leaves it on `msgHup`. -/
theorem C17_only_Tick_guards_membership (smStep : StepFn) (n : Node)
    (h : n.sm.id ∉ n.sm.ins)
    (hq : (smStep { Type_ := msgHup } n.sm).1 = true →
      n.sm.msgs.length ≤ (smStep { Type_ := msgHup } n.sm).2.msgs.length) :
    Node.Tick smStep n = .ok n ∧
    Node.Campaign smStep n = (Node.Step smStep n { Type_ := msgHup }).map Prod.snd ∧
    ∃ n', Node.Campaign smStep n = .ok n' ∧ n'.sm = (smStep { Type_ := msgHup } n.sm).2 := by
  have hp : n.sm.promotable = false := by simp [stateMachine.promotable, h]
  refine ⟨by simp [Node.Tick, hp], rfl, ?_⟩
  show ∃ n', (Node.Step smStep n { Type_ := msgHup }).map Prod.snd = .ok n' ∧ _
  cases hok : (smStep { Type_ := msgHup } n.sm).1 with
  | false =>
    rw [Step_of_reject smStep n _ hok]
    exact ⟨_, rfl, rfl⟩
  | true =>
    rw [Step_of_accept smStep n _ hok (hq hok)]
    exact ⟨_, rfl, rfl⟩

/-- C17 as amended, at the sample removed node. -/
theorem C17_only_Tick_guards_membership_witness :
    Node.Tick sampleStep removedNode = .ok removedNode ∧
    Node.Campaign sampleStep removedNode =
      (Node.Step sampleStep removedNode { Type_ := msgHup }).map Prod.snd ∧
    ∃ n', Node.Campaign sampleStep removedNode = .ok n' ∧
      n'.sm = (sampleStep { Type_ := msgHup } removedNode.sm).2 :=
  C17_only_Tick_guards_membership sampleStep removedNode (by decide)
    (by intro _; simp [sampleStep])

/-- C18: for every node that `New` constructs from machine integers with
`0 ≤ heartbeat` and `election ≥ 3 * heartbeat` (the product then does not
overflow, and `New` returns), every state reached by any sequence of `Step`,
`Tick`, `Propose`, `Campaign`, `Add`, `Remove` and `Next` has
`0 ≤ elapsed ≤ election`, and its election and heartbeat intervals are the ones
given to `New`. -/
theorem C18_timer_invariant (marshal : Config → Except String (List Nat))
    (unmarshal : List Nat → Option Config) (smStep : StepFn) (id heartbeat election : Int)
    (hint : isInt64 election) (hh : 0 ≤ heartbeat) (hge : election ≥ 3 * heartbeat) :
    ∃ n0, New id heartbeat election = .ok n0 ∧
      ∀ ops n, Node.run marshal unmarshal smStep ops n0 = .ok n →
        0 ≤ n.elapsed ∧ n.elapsed ≤ n.election ∧ n.election = election ∧
          n.heartbeat = heartbeat := by
  have hov : isInt64 (heartbeat * 3) := by
    unfold isInt64 at *
    omega
  refine ⟨_, New_ok_of_no_overflow id heartbeat election hov hge, ?_⟩
  intro ops n hrun
  obtain ⟨a, b, c, d⟩ := run_timer marshal unmarshal smStep ops _ n hint
    (by show heartbeat ≤ election; omega) (le_refl _) (by show (0 : Int) ≤ election; omega) hrun
  exact ⟨c, d, a, b⟩

/-- C18 at `New(1, 1, 10)` run with the sample handler and codec; one of its
runs ticks, hears an append request (which resets the counter), and ticks
again. -/
theorem C18_timer_invariant_witness :
    (∃ n0 n, New 1 1 10 = .ok n0 ∧
      Node.run sampleMarshal sampleUnmarshal sampleStep
        [Op.Tick, Op.Tick, Op.Step matchingApp, Op.Propose [120], Op.Next, Op.Tick] n0 = .ok n ∧
      n.elapsed = 1) ∧
    ∃ n0, New 1 1 10 = .ok n0 ∧
      ∀ ops n, Node.run sampleMarshal sampleUnmarshal sampleStep ops n0 = .ok n →
        0 ≤ n.elapsed ∧ n.elapsed ≤ n.election ∧ n.election = 10 ∧ n.heartbeat = 1 :=
  ⟨⟨_, _, by rfl, by rfl, by rfl⟩,
    C18_timer_invariant sampleMarshal sampleUnmarshal sampleStep 1 1 10
      (by decide) (by decide) (by decide)⟩

/-- C19: take a node with `elapsed = 0` and let `T, msgType` be the timeout and
trigger of its role (`election, msgHup` for a non-leader, `heartbeat, msgBeat`
for a leader).  If through the first `J` triggers the node stays promotable
and in that role (and the state machine only enqueues), then consecutive
calls of `Tick` pass a message to the state machine on exactly the calls
numbered `T + 1`, `2 (T + 1)`, ..., `J (T + 1)`: after `j (T + 1) + r` calls
with `r ≤ T` the state machine is as `j` triggers of type `msgType` leave it
and `elapsed` is `r`.  With `J = 1` this is the election period (the first
`election` calls pass nothing, call `election + 1` passes `msgHup` and leaves
`elapsed = 0`); for a node that stays leader it is the heartbeat period. -/
theorem C19_trigger_period (smStep : StepFn) (n : Node) (T : Nat) (msgType : messageType)
    (J : Nat)
    (h0 : n.elapsed = 0) (hT : (T : Int) < 2 ^ 63)
    (hstay : ∀ j, j < J →
      (stateMachine.afterTriggers smStep msgType j n.sm).promotable = true ∧
      (((T : Int), msgType) =
        if (stateMachine.afterTriggers smStep msgType j n.sm).state = stateLeader
        then (n.heartbeat, msgBeat) else (n.election, msgHup)) ∧
      ((smStep { Type_ := msgType } (stateMachine.afterTriggers smStep msgType j n.sm)).1 = true →
        (stateMachine.afterTriggers smStep msgType j n.sm).msgs.length ≤
          (smStep { Type_ := msgType }
            (stateMachine.afterTriggers smStep msgType j n.sm)).2.msgs.length)) :
    ∀ j r, (j < J ∧ r ≤ T) ∨ (j = J ∧ r = 0) →
      Node.ticks smStep (j * (T + 1) + r) n =
        .ok { n with
          sm := stateMachine.afterTriggers smStep msgType j n.sm, elapsed := (r : Int) } := by
  intro j r hjr
  have hper := ticks_periods smStep n T msgType J h0 hT hstay
  rcases hjr with ⟨hj, hr⟩ | ⟨hj, hr⟩
  · obtain ⟨hp, hrole, -⟩ := hstay j hj
    rw [ticks_add, hper j (by omega)]
    simp only []
    have hb := ticks_below smStep T msgType r
      { n with sm := stateMachine.afterTriggers smStep msgType j n.sm, elapsed := 0 } 0
      hp hrole hT rfl (by omega)
    rw [hb]
    simp
  · subst hj hr
    rw [Nat.add_zero, hper j (le_refl _)]
    rfl

/-- C19 at the sample follower reset to `elapsed = 0` (election interval 10):
seven calls of `Tick` leave the state machine untouched with `elapsed = 7`,
and call 11 passes `msgHup` and leaves `elapsed = 0`; and at the sample
leader (heartbeat interval 2): after 4 calls one `msgBeat` has been passed and
`elapsed` is 1, after 6 calls two have been passed and `elapsed` is 0. -/
theorem C19_trigger_period_witness :
    (Node.ticks sampleStep (0 * (10 + 1) + 7) { sampleNode with elapsed := 0 } =
      .ok { sampleNode with
        sm := stateMachine.afterTriggers sampleStep msgHup 0 sampleNode.sm,
        elapsed := ((7 : Nat) : Int) }) ∧
    (Node.ticks sampleStep (1 * (10 + 1) + 0) { sampleNode with elapsed := 0 } =
      .ok { sampleNode with
        sm := stateMachine.afterTriggers sampleStep msgHup 1 sampleNode.sm,
        elapsed := ((0 : Nat) : Int) }) ∧
    (Node.ticks sampleStep (1 * (2 + 1) + 1) leaderNode =
      .ok { leaderNode with
        sm := stateMachine.afterTriggers sampleStep msgBeat 1 leaderNode.sm,
        elapsed := ((1 : Nat) : Int) }) ∧
    (Node.ticks sampleStep (2 * (2 + 1) + 0) leaderNode =
      .ok { leaderNode with
        sm := stateMachine.afterTriggers sampleStep msgBeat 2 leaderNode.sm,
        elapsed := ((0 : Nat) : Int) }) ∧
    (stateMachine.afterTriggers sampleStep msgHup 1 sampleNode.sm).state = stateCandidate ∧
    (stateMachine.afterTriggers sampleStep msgBeat 2 leaderNode.sm).msgs.length = 2 := by
  have hf : ∀ j, j < 1 →
      (stateMachine.afterTriggers sampleStep msgHup j
        ({ sampleNode with elapsed := 0 } : Node).sm).promotable = true ∧
      ((((10 : Nat) : Int), msgHup) =
        if (stateMachine.afterTriggers sampleStep msgHup j
          ({ sampleNode with elapsed := 0 } : Node).sm).state = stateLeader
        then (({ sampleNode with elapsed := 0 } : Node).heartbeat, msgBeat)
        else (({ sampleNode with elapsed := 0 } : Node).election, msgHup)) ∧
      ((sampleStep { Type_ := msgHup } (stateMachine.afterTriggers sampleStep msgHup j
          ({ sampleNode with elapsed := 0 } : Node).sm)).1 = true →
        (stateMachine.afterTriggers sampleStep msgHup j
          ({ sampleNode with elapsed := 0 } : Node).sm).msgs.length ≤
          (sampleStep { Type_ := msgHup } (stateMachine.afterTriggers sampleStep msgHup j
            ({ sampleNode with elapsed := 0 } : Node).sm)).2.msgs.length) := by
    intro j hj
    interval_cases j
    exact ⟨by decide, by decide, fun _ => sampleStep_queue_grows _ _⟩
  have hl : ∀ j, j < 2 →
      (stateMachine.afterTriggers sampleStep msgBeat j leaderNode.sm).promotable = true ∧
      ((((2 : Nat) : Int), msgBeat) =
        if (stateMachine.afterTriggers sampleStep msgBeat j leaderNode.sm).state = stateLeader
        then (leaderNode.heartbeat, msgBeat) else (leaderNode.election, msgHup)) ∧
      ((sampleStep { Type_ := msgBeat }
          (stateMachine.afterTriggers sampleStep msgBeat j leaderNode.sm)).1 = true →
        (stateMachine.afterTriggers sampleStep msgBeat j leaderNode.sm).msgs.length ≤
          (sampleStep { Type_ := msgBeat }
            (stateMachine.afterTriggers sampleStep msgBeat j leaderNode.sm)).2.msgs.length) := by
    intro j hj
    interval_cases j
    · exact ⟨by decide, by decide, fun _ => sampleStep_queue_grows _ _⟩
    · exact ⟨by decide, by decide, fun _ => sampleStep_queue_grows _ _⟩
  refine ⟨?_, ?_, ?_, ?_, by decide, ?_⟩
  · exact C19_trigger_period sampleStep { sampleNode with elapsed := 0 } 10 msgHup 1 rfl
      (by decide) hf 0 7 (Or.inl ⟨by decide, by decide⟩)
  · exact C19_trigger_period sampleStep { sampleNode with elapsed := 0 } 10 msgHup 1 rfl
      (by decide) hf 1 0 (Or.inr ⟨rfl, rfl⟩)
  · exact C19_trigger_period sampleStep leaderNode 2 msgBeat 2 rfl
      (by decide) hl 1 1 (Or.inl ⟨by decide, by decide⟩)
  · exact C19_trigger_period sampleStep leaderNode 2 msgBeat 2 rfl
      (by decide) hl 2 0 (Or.inr ⟨rfl, rfl⟩)
  · simp [stateMachine.afterTriggers, sampleStep, leaderNode]

/-- C6: for every node (with `applied ≤ commit`, as the log always has it) on
which `Next` returns, that is, whose pending entries all have a known kind:
after `Next` the applied index equals the commit index, which is unchanged; so
nothing is pending any more, and a second `Next` with nothing in between
returns no entries and leaves the node, its membership set included, exactly
as it is, applying no configuration entry a second time. -/
theorem C6_Next_advances_applied (unmarshal : List Nat → Option Config) (n : Node)
    (hinv : n.sm.log.applied ≤ n.sm.log.committed)
    (h : ∀ e ∈ n.sm.nextEnts.1, e.Type_ = Normal ∨ e.Type_ = AddNode ∨ e.Type_ = RemoveNode) :
    ∃ n', Node.Next unmarshal n = .ok (n.sm.nextEnts.1, n') ∧
      n'.Applied = n'.sm.log.committed ∧
      n'.sm.log.committed = n.sm.log.committed ∧
      n'.sm.nextEnts.1 = [] ∧
      Node.Next unmarshal n' = .ok ([], n') := by
  obtain ⟨ha, hc, -⟩ := nextEnts_advances n.sm hinv
  have hlog := Next_log unmarshal n
  have happ : (foldConf unmarshal n.sm.nextEnts.1 n.sm.nextEnts.2).log.applied =
      (foldConf unmarshal n.sm.nextEnts.1 n.sm.nextEnts.2).log.committed := by
    rw [hlog, ha, hc]
  refine ⟨_, Next_of_known unmarshal n h, happ, by rw [hlog, hc], ?_, ?_⟩
  · show (foldConf unmarshal n.sm.nextEnts.1 n.sm.nextEnts.2).nextEnts.1 = []
    rw [nextEnts_of_applied_eq _ happ]
  · exact Next_of_nothing_pending unmarshal _ happ

/-- C6 at the sample node with applied index 1 and commit index 4: `Next` hands
out the three pending entries and leaves the applied index at 4. -/
theorem C6_Next_advances_applied_witness :
    pendingNode.Applied = 1 ∧ pendingNode.sm.log.committed = 4 ∧
    pendingNode.sm.nextEnts.1.length = 3 ∧
    ∃ n', Node.Next sampleUnmarshal pendingNode = .ok (pendingNode.sm.nextEnts.1, n') ∧
      n'.Applied = n'.sm.log.committed ∧
      n'.sm.log.committed = pendingNode.sm.log.committed ∧
      n'.sm.nextEnts.1 = [] ∧
      Node.Next sampleUnmarshal n' = .ok ([], n') :=
  ⟨by decide, by decide, by decide,
    C6_Next_advances_applied sampleUnmarshal pendingNode (by decide) (by decide)⟩

/-- C12 fails as stated: at the sample node the first `Next` returns the three
pending entries and the second `Next`, with nothing in between, returns
none. -/
theorem C12_second_Next_returns_nothing :
    ∃ n1, Node.Next sampleUnmarshal pendingNode =
        .ok ([{ Type_ := AddNode, Term := 1, Data := [7, 7] },
              { Type_ := AddNode, Term := 1, Data := [3] },
              { Type_ := RemoveNode, Term := 1, Data := [2] }], n1) ∧
      Node.Next sampleUnmarshal n1 = .ok ([], n1) ∧
      ([{ Type_ := AddNode, Term := 1, Data := [7, 7] },
        { Type_ := AddNode, Term := 1, Data := [3] },
        { Type_ := RemoveNode, Term := 1, Data := [2] }] : List Entry) ≠ [] := by
  have hp : pendingNode.sm.nextEnts.1 =
      [{ Type_ := AddNode, Term := 1, Data := [7, 7] },
       { Type_ := AddNode, Term := 1, Data := [3] },
       { Type_ := RemoveNode, Term := 1, Data := [2] }] := by decide
  have h1 := Next_of_known sampleUnmarshal pendingNode (by decide)
  have hlog := Next_log sampleUnmarshal pendingNode
  have happ : (foldConf sampleUnmarshal pendingNode.sm.nextEnts.1
      pendingNode.sm.nextEnts.2).log.applied =
      (foldConf sampleUnmarshal pendingNode.sm.nextEnts.1
        pendingNode.sm.nextEnts.2).log.committed := by
    rw [hlog]
    decide
  rw [hp] at h1
  exact ⟨_, h1, by rw [← hp]; exact Next_of_nothing_pending sampleUnmarshal _ happ, by simp⟩

/-- C12 as amended: for every node (with `applied ≤ commit`), when a call of
`Next` returns a sequence of entries, a second call with no other operation in
between returns as well, returns the empty sequence, and leaves the node as
it is; so the two calls return the same sequence exactly when the first
returned none. -/
theorem C12_Next_twice (unmarshal : List Nat → Option Config) (n n1 : Node)
    (ents : List Entry)
    (hinv : n.sm.log.applied ≤ n.sm.log.committed)
    (hfirst : Node.Next unmarshal n = .ok (ents, n1)) :
    ents = n.sm.nextEnts.1 ∧ Node.Next unmarshal n1 = .ok ([], n1) ∧
      ∀ ents2 n2, Node.Next unmarshal n1 = .ok (ents2, n2) → (ents2 = ents ↔ ents = []) := by
  have hk := Next_known_of_ok unmarshal n _ hfirst
  rw [Next_of_known unmarshal n hk] at hfirst
  injection hfirst with hfirst
  injection hfirst with he hn
  subst he hn
  obtain ⟨ha, hc, -⟩ := nextEnts_advances n.sm hinv
  have hlog := Next_log unmarshal n
  have happ : (foldConf unmarshal n.sm.nextEnts.1 n.sm.nextEnts.2).log.applied =
      (foldConf unmarshal n.sm.nextEnts.1 n.sm.nextEnts.2).log.committed := by
    rw [hlog, ha, hc]
  have h2 := Next_of_nothing_pending unmarshal
    { n with sm := foldConf unmarshal n.sm.nextEnts.1 n.sm.nextEnts.2 } happ
  refine ⟨rfl, h2, ?_⟩
  intro ents2 n2 hsecond
  rw [h2] at hsecond
  injection hsecond with hsecond
  injection hsecond with he2 _
  subst he2
  exact eq_comm

/-- C12 as amended, at the sample node with three pending entries. -/
theorem C12_Next_twice_witness :
    pendingNode.sm.nextEnts.1.length = 3 ∧
    (pendingNode.sm.nextEnts.1 = pendingNode.sm.nextEnts.1 ∧
      Node.Next sampleUnmarshal
          { pendingNode with
            sm := foldConf sampleUnmarshal pendingNode.sm.nextEnts.1
              pendingNode.sm.nextEnts.2 } =
        .ok ([], { pendingNode with
            sm := foldConf sampleUnmarshal pendingNode.sm.nextEnts.1
              pendingNode.sm.nextEnts.2 }) ∧
      ∀ ents2 n2, Node.Next sampleUnmarshal
          { pendingNode with
            sm := foldConf sampleUnmarshal pendingNode.sm.nextEnts.1
              pendingNode.sm.nextEnts.2 } = .ok (ents2, n2) →
        (ents2 = pendingNode.sm.nextEnts.1 ↔ pendingNode.sm.nextEnts.1 = [])) :=
  ⟨by decide, C12_Next_twice sampleUnmarshal pendingNode _ _ (by decide)
    (Next_of_known sampleUnmarshal pendingNode (by decide))⟩

/-- C20 fails as stated: the handler `queueReadingStep` only appends to its
queue, and the sample follower with nothing queued and the same follower with
one message queued, which differ in nothing else, end with `elapsed = 0` and
`elapsed = 5` after `Node.Step` of the same message. -/
theorem C20_queued_messages_can_matter :
    appendsOnly queueReadingStep ∧
    sampleNode.sm.msgs = [] ∧
    Node.Step queueReadingStep sampleNode matchingApp =
      .ok (true, { sampleNode with
        sm := { sampleNode.sm with msgs := [{ Type_ := msgAppResp }] }, elapsed := 0 }) ∧
    Node.Step queueReadingStep
        { sampleNode with sm := { sampleNode.sm with msgs := [staleVote] } } matchingApp =
      .ok (true, { sampleNode with
        sm := { sampleNode.sm with msgs := [staleVote] }, elapsed := 5 }) :=
  ⟨queueReadingStep_appendsOnly, by decide, by rfl, by rfl⟩

/-- C20 as amended: under the assumption that the state machine's `Step` only
appends to its outbound queue, `Node.Step` never fails on its slice
`n.sm.msgs[l:]` (the queue after the step is the old queue followed by the
messages `out` queued during it, so the pre-call length is in range) and the
`elapsed` it leaves is computed from `out` and the `elapsed` before alone; if
moreover the state machine does not consult its queue, a node that differs
only in the messages `q` queued before the call gets the same verdict and the
same `elapsed` from `Node.Step` of the same message. -/
theorem C20_Step_in_range_and_queue_blind (smStep : StepFn) (ha : appendsOnly smStep)
    (n : Node) (q : List Message) (m : Message) :
    (∃ r1 out, Node.Step smStep n m = .ok r1 ∧
      (smStep m n.sm).2.msgs = n.sm.msgs ++ out ∧
      n.sm.msgs.length ≤ (smStep m n.sm).2.msgs.length ∧
      r1.2.elapsed =
        (if (smStep m n.sm).1 then Node.scanResponses out n.elapsed else n.elapsed)) ∧
    (queueBlind smStep →
      ∃ r1 r2, Node.Step smStep n m = .ok r1 ∧
        Node.Step smStep { n with sm := { n.sm with msgs := q } } m = .ok r2 ∧
        r1.1 = r2.1 ∧ r1.2.elapsed = r2.2.elapsed) := by
  obtain ⟨out, h1⟩ := ha m n.sm
  obtain ⟨out2, h2⟩ := ha m { n.sm with msgs := q }
  have hlen : n.sm.msgs.length ≤ (smStep m n.sm).2.msgs.length := by simp [h1]
  have hlen2 : ({ n with sm := { n.sm with msgs := q } } : Node).sm.msgs.length ≤
      (smStep m ({ n with sm := { n.sm with msgs := q } } : Node).sm).2.msgs.length := by
    simp [h2]
  cases hok : (smStep m n.sm).1 with
  | false =>
    refine ⟨⟨_, out, Step_of_reject smStep n m hok, h1, hlen, by simp⟩, fun hb => ?_⟩
    have hv := (hb m n.sm q).1
    rw [hok] at hv
    exact ⟨_, _, Step_of_reject smStep n m hok,
      Step_of_reject smStep { n with sm := { n.sm with msgs := q } } m hv, rfl, rfl⟩
  | true =>
    refine ⟨⟨_, out, Step_of_accept smStep n m hok hlen, h1, hlen, by simp [h1]⟩, fun hb => ?_⟩
    obtain ⟨hv, hd⟩ := hb m n.sm q
    rw [hok] at hv
    refine ⟨_, _, Step_of_accept smStep n m hok hlen,
      Step_of_accept smStep { n with sm := { n.sm with msgs := q } } m hv hlen2, rfl, ?_⟩
    show Node.scanResponses _ n.elapsed = Node.scanResponses _ n.elapsed
    rw [← hd]

/-- C20 as amended, at the sample follower and a matching append request, with
and without a vote response already queued: `elapsed` is 0 after `Node.Step`
either way. -/
theorem C20_Step_in_range_and_queue_blind_witness :
    (∃ r1 out, Node.Step sampleStep sampleNode matchingApp = .ok r1 ∧
      (sampleStep matchingApp sampleNode.sm).2.msgs = sampleNode.sm.msgs ++ out ∧
      sampleNode.sm.msgs.length ≤ (sampleStep matchingApp sampleNode.sm).2.msgs.length ∧
      r1.2.elapsed =
        (if (sampleStep matchingApp sampleNode.sm).1 then
          Node.scanResponses out sampleNode.elapsed else sampleNode.elapsed)) ∧
    ∃ r1 r2, Node.Step sampleStep sampleNode matchingApp = .ok r1 ∧
      Node.Step sampleStep
        { sampleNode with
          sm := { sampleNode.sm with msgs := [{ Type_ := msgVoteResp, To := 2, Index := -1 }] } }
        matchingApp = .ok r2 ∧
      r1.1 = r2.1 ∧ r1.2.elapsed = r2.2.elapsed :=
  ⟨(C20_Step_in_range_and_queue_blind sampleStep sampleStep_appendsOnly sampleNode
      [{ Type_ := msgVoteResp, To := 2, Index := -1 }] matchingApp).1,
    (C20_Step_in_range_and_queue_blind sampleStep sampleStep_appendsOnly sampleNode
      [{ Type_ := msgVoteResp, To := 2, Index := -1 }] matchingApp).2 sampleStep_queueBlind⟩

end Raft
